import Mathlib

/-!
Verification development for the Key-Value-Store repository
(an in-memory Redis-like store written in C++).

The definitions below are a shallow embedding of the C++ sources:

* `AVL`, `AVLTree`      — `include/data_structures/avl_tree.h` (template `AVLTree<K,V>`)
* `Score`               — the `double` scores of the sorted set, restricted to the
                          operations the code performs on them (`<`, `>`, `!=`),
                          with an explicit NaN element mirroring IEEE comparison
                          semantics (every comparison with NaN is false, `!=` true)
* `SortedSet`           — `src/data_structures/sorted_set.cpp`
* `Value`, `HashTable`  — `src/data_structures/hash_table.cpp` (the translation unit
                          built by CMakeLists.txt, matching `hash_table.h`)
* `TTLHeap`             — `src/data_structures/heap.cpp`
* `StorageEngine`       — `src/storage_engine.cpp`
* `CommandResponse` and the `cmd_*` functions — `src/commands/command_handler.cpp`

Modelling conventions:
* `std::chrono::steady_clock::time_point` instants are natural numbers; functions
  that read the clock internally take the instant `now` as an explicit parameter.
* The hash table's bucket array is abstracted to a single association list of
  entries: bucketing never changes which entry `find_entry` locates (keys are
  unique across buckets), and no claim depends on iteration order.  The
  `size_` counter of `HashTable` always equals the number of entries, so the
  model exposes the list length as `size`.
* Mutexes and the background thread are dropped; operations are modelled as
  pure state transformers applied sequentially.
-/

namespace KVS

/-! ## Association-list helpers

`std::unordered_map` (used for `member_scores_` and `key_to_index_`) is modelled
as an association list with replace-or-append update and erase. -/

/-- Lookup in an association list (first entry with the key), as
`std::unordered_map::find`. -/
def assocFind {β : Type} (m : List (String × β)) (k : String) : Option β :=
  (m.find? (fun p => p.1 = k)).map Prod.snd

/-- `m[k] = v`: replace the first binding of `k`, or append a new one. -/
def assocSet {β : Type} (m : List (String × β)) (k : String) (v : β) :
    List (String × β) :=
  match m with
  | [] => [(k, v)]
  | (k0, v0) :: t => if k0 = k then (k, v) :: t else (k0, v0) :: assocSet t k v

/-- `m.erase(k)`: drop the (unique) binding of `k`. -/
def assocErase {β : Type} (m : List (String × β)) (k : String) :
    List (String × β) :=
  match m with
  | [] => []
  | (k0, v0) :: t => if k0 = k then t else (k0, v0) :: assocErase t k

/-! ## AVL tree — `include/data_structures/avl_tree.h`

The template `AVLTree<K, V>` compares keys only with `operator<` and
`operator>`; the embedding takes those two comparisons as explicit boolean
parameters `ltb` and `gtb` so that it can be instantiated both with a linear
order (the template's comparator contract) and with IEEE `double` comparisons
including NaN. -/

/-- A node stores its key, value and the `height` field (`struct Node`). -/
inductive AVL (K V : Type) where
  | nil : AVL K V
  | node (l : AVL K V) (k : K) (v : V) (h : ℕ) (r : AVL K V) : AVL K V
deriving DecidableEq

namespace AVL

variable {K V : Type}

/-- `AVLTree::height(node)`: the stored height, `0` for null. -/
def height : AVL K V → ℕ
  | nil => 0
  | node _ _ _ h _ => h

/-- `AVLTree::balance_factor(node)`: stored height of left minus right. -/
def bfac : AVL K V → ℤ
  | nil => 0
  | node l _ _ _ r => (height l : ℤ) - height r

/-- `AVLTree::update_height(node)`. -/
def updateHeight : AVL K V → AVL K V
  | nil => nil
  | node l k v _ r => node l k v (1 + max (height l) (height r)) r

/-- `AVLTree::rotate_right(y)`.  The C++ version dereferences `y->left`;
on a null left child (unreachable under the AVL invariant) the model
returns the tree unchanged. -/
def rotateR : AVL K V → AVL K V
  | node (node a xk xv hx b) yk yv hy c =>
    let y' := updateHeight (node b yk yv hy c)
    updateHeight (node a xk xv hx y')
  | t => t

/-- `AVLTree::rotate_left(x)`; same remark as `rotateR`. -/
def rotateL : AVL K V → AVL K V
  | node a xk xv hx (node b yk yv hy c) =>
    let x' := updateHeight (node a xk xv hx b)
    updateHeight (node x' yk yv hy c)
  | t => t

/-- `AVLTree::balance(node)`: update the height, then rotate according to the
balance factor (left-left / left-right / right-right / right-left cases). -/
def balance : AVL K V → AVL K V
  | nil => nil
  | node l k v _ r =>
    let n := node l k v (1 + max (height l) (height r)) r
    if (height l : ℤ) - height r > 1 then
      if bfac l < 0 then
        rotateR (node (rotateL l) k v (1 + max (height l) (height r)) r)
      else rotateR n
    else if (height l : ℤ) - height r < -1 then
      if bfac r > 0 then
        rotateL (node l k v (1 + max (height l) (height r)) (rotateR r))
      else rotateL n
    else n

/-- `AVLTree::insert_node`.  The boolean records whether `size_++` ran
(a genuinely new node was created); the equal-keys branch overwrites the
value and returns without rebalancing, exactly as the C++ does. -/
def insertNode (ltb gtb : K → K → Bool) : AVL K V → K → V → AVL K V × Bool
  | nil, k, v => (node nil k v 1 nil, true)
  | node l k0 v0 h r, k, v =>
    if ltb k k0 then
      let p := insertNode ltb gtb l k v
      (balance (node p.1 k0 v0 h r), p.2)
    else if gtb k k0 then
      let p := insertNode ltb gtb r k v
      (balance (node l k0 v0 h p.1), p.2)
    else (node l k0 v h r, false)

/-- `AVLTree::find_min(node)`: leftmost node of a non-null tree.  The extra
argument is the value returned for a null tree (never used from the call
site, which passes a non-null tree). -/
def findMinP : AVL K V → K × V → K × V
  | nil, d => d
  | node l k v _ _, _ => findMinP l (k, v)

/-- `AVLTree::remove_node`.  The boolean records whether `size_--` ran.
The two-children case copies the in-order successor's key and value into the
node and deletes the successor from the right subtree. -/
def removeNode (ltb gtb : K → K → Bool) : AVL K V → K → AVL K V × Bool
  | nil, _ => (nil, false)
  | node l k0 v0 h r, k =>
    if ltb k k0 then
      let p := removeNode ltb gtb l k
      (balance (node p.1 k0 v0 h r), p.2)
    else if gtb k k0 then
      let p := removeNode ltb gtb r k
      (balance (node l k0 v0 h p.1), p.2)
    else
      match l, r with
      | nil, rr => (rr, true)
      | node ll lk lv lh lr, nil => (node ll lk lv lh lr, true)
      | node ll lk lv lh lr, rr@(node _ _ _ _ _) =>
        let s := findMinP rr (k0, v0)
        let p := removeNode ltb gtb rr s.1
        (balance (node (node ll lk lv lh lr) s.1 s.2 h p.1), p.2)

/-- `AVLTree::find_node` / `find`. -/
def find (ltb gtb : K → K → Bool) : AVL K V → K → Option V
  | nil, _ => none
  | node l k0 v0 _ r, k =>
    if ltb k k0 then find ltb gtb l k
    else if gtb k k0 then find ltb gtb r k
    else some v0

/-- `AVLTree::inorder_traversal` / `get_all`. -/
def getAll : AVL K V → List (K × V)
  | nil => []
  | node l k v _ r => getAll l ++ (k, v) :: getAll r

/-- Number of nodes actually in the tree. -/
def cnt : AVL K V → ℕ
  | nil => 0
  | node l _ _ _ r => cnt l + cnt r + 1

end AVL

/-- The `AVLTree` class: a root pointer plus the `size_` counter. -/
structure AVLTree (K V : Type) where
  root : AVL K V
  size : ℕ
deriving DecidableEq

namespace AVLTree

variable {K V : Type}

/-- `AVLTree()` constructor. -/
def empty : AVLTree K V := ⟨AVL.nil, 0⟩

/-- `AVLTree::insert`. -/
def insert (ltb gtb : K → K → Bool) (t : AVLTree K V) (k : K) (v : V) :
    AVLTree K V :=
  let p := AVL.insertNode ltb gtb t.root k v
  ⟨p.1, t.size + (if p.2 then 1 else 0)⟩

/-- `AVLTree::remove`: returns the new tree and `size_ < old_size` (which,
since `size_--` runs exactly when a node is deleted, is the deletion flag). -/
def remove (ltb gtb : K → K → Bool) (t : AVLTree K V) (k : K) :
    AVLTree K V × Bool :=
  let p := AVL.removeNode ltb gtb t.root k
  (⟨p.1, t.size - (if p.2 then 1 else 0)⟩, p.2)

end AVLTree

/-! ## Scores

`SortedSet` instantiates `AVLTree<double, std::string>` and compares scores
with `<`, `>` and `!=`.  A score is either a finite value (modelled as a
rational — the claims never depend on floating-point rounding) or NaN, for
which every ordered comparison is false and `!=` is true. -/

inductive Score where
  | nan : Score
  | fin (q : ℚ) : Score
deriving DecidableEq

/-- IEEE `<` on scores. -/
def Score.ltb : Score → Score → Bool
  | fin a, fin b => a < b
  | _, _ => false

/-- IEEE `>` on scores. -/
def Score.gtb : Score → Score → Bool
  | fin a, fin b => b < a
  | _, _ => false

/-- IEEE `!=` on scores (`NaN != x` is true for every `x`). -/
def Score.neb : Score → Score → Bool
  | fin a, fin b => a ≠ b
  | _, _ => true

/-! ## SortedSet — `src/data_structures/sorted_set.cpp`

State: `score_tree_ : AVLTree<double, std::string>` (keyed by the score
alone) and `member_scores_ : unordered_map<string, double>`. -/

structure SortedSet where
  member_scores : List (String × Score)
  score_tree : AVLTree Score String
deriving DecidableEq

namespace SortedSet

/-- `SortedSet()` constructor. -/
def empty : SortedSet := ⟨[], AVLTree.empty⟩

/-- `SortedSet::add(member, score)`: returns the C++ `bool` result together
with the new state.  An existing member with a different score has its old
score removed from the tree (`score_tree_.remove(it->second)` — by score
only) before the new `(score, member)` is inserted. -/
def add (s : SortedSet) (member : String) (score : Score) :
    Bool × SortedSet :=
  match assocFind s.member_scores member with
  | some old =>
    if Score.neb old score then
      let t1 := (AVLTree.remove Score.ltb Score.gtb s.score_tree old).1
      let t2 := AVLTree.insert Score.ltb Score.gtb t1 score member
      (true, ⟨assocSet s.member_scores member score, t2⟩)
    else (false, s)
  | none =>
    (true, ⟨assocSet s.member_scores member score,
            AVLTree.insert Score.ltb Score.gtb s.score_tree score member⟩)

/-- `SortedSet::remove(member)`. -/
def remove (s : SortedSet) (member : String) : Bool × SortedSet :=
  match assocFind s.member_scores member with
  | some old =>
    (true, ⟨assocErase s.member_scores member,
            (AVLTree.remove Score.ltb Score.gtb s.score_tree old).1⟩)
  | none => (false, s)

/-- `SortedSet::get_score(member)`. -/
def get_score (s : SortedSet) (member : String) : Option Score :=
  assocFind s.member_scores member

/-- `SortedSet::size()` (`member_scores_.size()`). -/
def size (s : SortedSet) : ℕ := s.member_scores.length

/-- `SortedSet::get_all()`: in-order pairs of the tree, flipped to
`(member, score)`. -/
def get_all (s : SortedSet) : List (String × Score) :=
  (AVL.getAll s.score_tree.root).map (fun p => (p.2, p.1))

end SortedSet

/-! ## Values and the hash table — `src/data_structures/hash_table.cpp`

This is the translation unit listed in `CMakeLists.txt` and matching the
declarations of `hash_table.h`; its `get` and `exists` do not inspect the
entry's expiry.  (The repository also carries a second, differing revision of
`hash_table.cpp`; see the claim notes.) -/

/-- `class Value`: tagged union of nothing, string, integer, or an
(owning pointer to an) embedded sorted set. -/
inductive Value where
  | vnone : Value
  | vstr (s : String) : Value
  | vint (n : ℤ) : Value
  | vzset (z : SortedSet) : Value
deriving DecidableEq

/-- `Value::is_string()`. -/
def Value.is_string : Value → Bool
  | vstr _ => true
  | _ => false

/-- `Value::is_sorted_set()`. -/
def Value.is_sorted_set : Value → Bool
  | vzset _ => true
  | _ => false

/-- `Value::as_string()`. -/
def Value.as_string : Value → String
  | vstr s => s
  | vint n => toString n
  | vzset _ => "[SORTED_SET]"
  | vnone => "[NONE]"

/-- `struct Entry`: key, value, optional absolute expiry instant. -/
structure HTEntry where
  key : String
  value : Value
  expiry : Option ℕ
deriving DecidableEq

/-- `Entry::is_expired()` at instant `now`: `now > expiry` when an expiry is
set, otherwise false. -/
def HTEntry.is_expired (e : HTEntry) (now : ℕ) : Bool :=
  match e.expiry with
  | none => false
  | some t => now > t

/-- `class HashTable`, with the bucket array abstracted to one entry list
(see the module comment). -/
structure HashTable where
  entries : List HTEntry
deriving DecidableEq

namespace HashTable

/-- `HashTable::find_entry` (first entry whose key matches). -/
def find_entry (h : HashTable) (k : String) : Option HTEntry :=
  h.entries.find? (fun e => e.key = k)

/-- Update helper for `HashTable::set`: overwrite the value and reset the
expiry of an existing entry. -/
def setList (l : List HTEntry) (k : String) (v : Value) : List HTEntry :=
  match l with
  | [] => [⟨k, v, none⟩]
  | e :: t => if e.key = k then ⟨k, v, none⟩ :: t else e :: setList t k v

/-- `HashTable::set(key, value)`: update in place (resetting the expiry) or
append a fresh entry.  Always returns true in the C++, so the model returns
just the table. -/
def set (h : HashTable) (k : String) (v : Value) : HashTable :=
  ⟨setList h.entries k v⟩

/-- Update helper for `HashTable::set_with_expiry`. -/
def setExpList (l : List HTEntry) (k : String) (v : Value) (t : ℕ) :
    List HTEntry :=
  match l with
  | [] => [⟨k, v, some t⟩]
  | e :: tl => if e.key = k then ⟨k, v, some t⟩ :: tl else e :: setExpList tl k v t

/-- `HashTable::set_with_expiry(key, value, ttl)` with the clock reading
`now` passed explicitly: the entry gets absolute expiry `now + ttl`. -/
def set_with_expiry (h : HashTable) (k : String) (v : Value) (ttl now : ℕ) :
    HashTable :=
  ⟨setExpList h.entries k v (now + ttl)⟩

/-- `HashTable::get(key)`: return the value of the matching entry, with no
expiry check (this translation unit has none). -/
def get (h : HashTable) (k : String) : Option Value :=
  (h.find_entry k).map HTEntry.value

/-- Erase helper for `HashTable::del`. -/
def delList (l : List HTEntry) (k : String) : List HTEntry :=
  match l with
  | [] => []
  | e :: t => if e.key = k then t else e :: delList t k

/-- `HashTable::del(key)`: erase the entry, returning whether one existed. -/
def del (h : HashTable) (k : String) : HashTable × Bool :=
  ((⟨delList h.entries k⟩ : HashTable), (h.find_entry k).isSome)

/-- `HashTable::exists(key)` (no expiry check in this translation unit). -/
def exists_ (h : HashTable) (k : String) : Bool :=
  (h.find_entry k).isSome

/-- Update helper for `HashTable::expire`. -/
def expList (l : List HTEntry) (k : String) (t : ℕ) : List HTEntry :=
  match l with
  | [] => []
  | e :: tl =>
    if e.key = k then ⟨e.key, e.value, some t⟩ :: tl else e :: expList tl k t

/-- `HashTable::expire(key, ttl)` at instant `now`: set the entry's expiry
to `now + ttl`; returns whether the key was present. -/
def expire (h : HashTable) (k : String) (ttl now : ℕ) : HashTable × Bool :=
  ((⟨expList h.entries k (now + ttl)⟩ : HashTable), (h.find_entry k).isSome)

/-- `HashTable::size()`: the `size_` counter, which always equals the number
of stored entries. -/
def size (h : HashTable) : ℕ := h.entries.length

/-- In-place value overwrite reached through the `SortedSet*` pointer stored
in a `Value` (the C++ mutates the pointed-to set; the entry itself, its key
and expiry, are untouched). -/
def mutList (l : List HTEntry) (k : String) (v : Value) : List HTEntry :=
  match l with
  | [] => []
  | e :: t =>
    if e.key = k then ⟨e.key, v, e.expiry⟩ :: t else e :: mutList t k v

/-- See `mutList`. -/
def mutate_value (h : HashTable) (k : String) (v : Value) : HashTable :=
  ⟨mutList h.entries k v⟩

end HashTable

/-! ## TTL heap — `src/data_structures/heap.cpp`

State: the array `heap_ : Vec<TTLEntry>` and the side map
`key_to_index_ : unordered_map<string, size_t>`. -/

/-- `struct TTLEntry`. -/
structure TTLEntry where
  key : String
  expiry : ℕ
deriving DecidableEq

/-- `class TTLHeap`. -/
structure TTLHeap where
  heap : List TTLEntry
  key_to_index : List (String × ℕ)
deriving DecidableEq

namespace TTLHeap

/-- `heap_[i]` (the C++ indexes only in range; out-of-range reads never
occur along modelled paths). -/
def entryAt (l : List TTLEntry) (i : ℕ) : TTLEntry :=
  l.getD i ⟨"", 0⟩

/-- The empty heap (`TTLHeap()` constructor / after `clear()`). -/
def empty : TTLHeap := ⟨[], []⟩

/-- List part of `TTLHeap::swap_entries(i, j)`: `std::swap(heap_[i], heap_[j])`. -/
def swapL (l : List TTLEntry) (i j : ℕ) : List TTLEntry :=
  (l.set i (entryAt l j)).set j (entryAt l i)

/-- `TTLHeap::swap_entries(i, j)`: swap the array slots and re-point
`key_to_index_` at both moved keys. -/
def swap_entries (s : TTLHeap) (i j : ℕ) : TTLHeap :=
  let h := swapL s.heap i j
  ⟨h, assocSet (assocSet s.key_to_index (entryAt h i).key i) (entryAt h j).key j⟩

theorem swap_entries_heap (s : TTLHeap) (i j : ℕ) :
    (swap_entries s i j).heap = swapL s.heap i j := rfl

theorem swapL_length (l : List TTLEntry) (i j : ℕ) :
    (swapL l i j).length = l.length := by
  simp [swapL]

/-- One unrolling bound for the `while` loop of `TTLHeap::heapify_up`: the
index strictly decreases, so `i` iterations always suffice and the fuel
never runs out on the loop's entry conditions. -/
def heapifyUpGo : ℕ → TTLHeap → ℕ → TTLHeap
  | 0, s, _ => s
  | fuel + 1, s, i =>
    if 0 < i then
      let p := (i - 1) / 2
      if (entryAt s.heap i).expiry < (entryAt s.heap p).expiry then
        heapifyUpGo fuel (swap_entries s i p) p
      else s
    else s

/-- `TTLHeap::heapify_up(index)`. -/
def heapify_up (s : TTLHeap) (i : ℕ) : TTLHeap :=
  heapifyUpGo i s i

/-- The index `smallest` computed inside one round of
`TTLHeap::heapify_down(index)`. -/
def smallestIdx (l : List TTLEntry) (i : ℕ) : ℕ :=
  let li := 2 * i + 1
  let ri := 2 * i + 2
  let s1 := if li < l.length ∧ (entryAt l li).expiry < (entryAt l i).expiry
            then li else i
  if ri < l.length ∧ (entryAt l ri).expiry < (entryAt l s1).expiry
  then ri else s1

theorem smallestIdx_cases (l : List TTLEntry) (i : ℕ) :
    smallestIdx l i = i ∨
    (i < smallestIdx l i ∧ smallestIdx l i < l.length) := by
  unfold smallestIdx
  dsimp only
  split <;> split <;> omega

/-- One unrolling bound for the `while` loop of `TTLHeap::heapify_down`: the
index strictly increases while staying below the (unchanged) array length,
so `heap_.size()` iterations always suffice; when the fuel is zero the loop
condition is already false. -/
def heapifyDownGo : ℕ → TTLHeap → ℕ → TTLHeap
  | 0, s, _ => s
  | fuel + 1, s, i =>
    let sm := smallestIdx s.heap i
    if sm = i then s else heapifyDownGo fuel (swap_entries s i sm) sm

/-- `TTLHeap::heapify_down(index)`. -/
def heapify_down (s : TTLHeap) (i : ℕ) : TTLHeap :=
  heapifyDownGo s.heap.length s i

/-- `TTLHeap::add(key, expiry)`: update in place (sift both ways from the
original index) when the key is present, else push at the tail and sift up. -/
def add (s : TTLHeap) (key : String) (expiry : ℕ) : TTLHeap :=
  match assocFind s.key_to_index key with
  | some index =>
    let s1 : TTLHeap := ⟨s.heap.set index ⟨(entryAt s.heap index).key, expiry⟩,
                         s.key_to_index⟩
    heapify_down (heapify_up s1 index) index
  | none =>
    let h := s.heap ++ [⟨key, expiry⟩]
    let index := h.length - 1
    heapify_up ⟨h, assocSet s.key_to_index key index⟩ index

/-- `TTLHeap::update(key, expiry)`: sift up on a decrease, down otherwise;
adds the key when absent. -/
def update (s : TTLHeap) (key : String) (expiry : ℕ) : TTLHeap :=
  match assocFind s.key_to_index key with
  | some index =>
    let old := (entryAt s.heap index).expiry
    let s1 : TTLHeap := ⟨s.heap.set index ⟨(entryAt s.heap index).key, expiry⟩,
                         s.key_to_index⟩
    if expiry < old then heapify_up s1 index else heapify_down s1 index
  | none => add s key expiry

/-- `TTLHeap::remove(key)`: swap the doomed slot with the last, pop, then
sift down at the vacated index.  (The C++ performs no sift up here.) -/
def remove (s : TTLHeap) (key : String) : TTLHeap :=
  match assocFind s.key_to_index key with
  | some index =>
    let last := s.heap.length - 1
    if index ≠ last then
      let s1 := swap_entries s index last
      let s2 : TTLHeap := ⟨s1.heap.dropLast, assocErase s1.key_to_index key⟩
      if s2.heap.isEmpty then s2 else heapify_down s2 index
    else
      ⟨s.heap.dropLast, assocErase s.key_to_index key⟩
  | none => s

theorem heapifyDownGo_length (fuel : ℕ) :
    ∀ (s : TTLHeap) (i : ℕ),
      (heapifyDownGo fuel s i).heap.length = s.heap.length := by
  induction fuel with
  | zero => intro s i; rfl
  | succ n ih =>
    intro s i
    show (if smallestIdx s.heap i = i then s
      else heapifyDownGo n (swap_entries s i (smallestIdx s.heap i))
        (smallestIdx s.heap i)).heap.length = s.heap.length
    split
    · rfl
    · rw [ih, swap_entries_heap, swapL_length]

theorem heapify_down_length (s : TTLHeap) (i : ℕ) :
    (heapify_down s i).heap.length = s.heap.length :=
  heapifyDownGo_length s.heap.length s i

/-- The body of one iteration of the pop loop in
`TTLHeap::get_expired_keys`: swap the root with the last entry, pop the
array, erase the popped key from `key_to_index_`, and sift the new root
down (when the heap is still non-empty). -/
def popState (s : TTLHeap) : TTLHeap :=
  let key := (entryAt s.heap 0).key
  let last := s.heap.length - 1
  let s1 := swap_entries s 0 last
  let s2 : TTLHeap := ⟨s1.heap.dropLast, assocErase s1.key_to_index key⟩
  if s2.heap.isEmpty then s2 else heapify_down s2 0

/-- One unrolling bound for the pop loop of `TTLHeap::get_expired_keys`:
each pop shortens the array by one, so `heap_.size()` iterations suffice;
at fuel zero the array is empty and the loop condition is false. -/
def drainGo : ℕ → TTLHeap → ℕ → List String × TTLHeap
  | 0, s, _ => ([], s)
  | fuel + 1, s, now =>
    if s.heap ≠ [] ∧ (entryAt s.heap 0).expiry ≤ now then
      let p := drainGo fuel (popState s) now
      ((entryAt s.heap 0).key :: p.1, p.2)
    else ([], s)

/-- `TTLHeap::get_expired_keys()` at instant `now`: repeatedly pop the root
while its expiry is `≤ now`, collecting keys in pop order. -/
def get_expired_keys (s : TTLHeap) (now : ℕ) : List String × TTLHeap :=
  drainGo s.heap.length s now

/-- `TTLHeap::size()`. -/
def size (s : TTLHeap) : ℕ := s.heap.length

/-- `TTLHeap::next_expiry()`. -/
def next_expiry (s : TTLHeap) : Option ℕ :=
  if s.heap.isEmpty then none else some (entryAt s.heap 0).expiry

end TTLHeap

/-! ## Storage engine — `src/storage_engine.cpp`

The engine owns the hash table and the TTL heap.  Clock readings
(`std::chrono::steady_clock::now()`) are passed as the explicit `now`
parameter of the operations that perform them; the background expiry thread
is modelled by invoking `process_expired_keys` explicitly. -/

structure StorageEngine where
  hash_table : HashTable
  ttl_heap : TTLHeap
deriving DecidableEq

namespace StorageEngine

/-- A freshly constructed engine. -/
def empty : StorageEngine := ⟨⟨[]⟩, TTLHeap.empty⟩

/-- `StorageEngine::set(key, value)`: only `hash_table_.set` runs; the TTL
heap is not touched. -/
def set (e : StorageEngine) (k v : String) : StorageEngine :=
  { e with hash_table := e.hash_table.set k (Value.vstr v) }

/-- `StorageEngine::set_nx(key, value)`. -/
def set_nx (e : StorageEngine) (k v : String) : Bool × StorageEngine :=
  if e.hash_table.exists_ k then (false, e)
  else (true, { e with hash_table := e.hash_table.set k (Value.vstr v) })

/-- `StorageEngine::set_ex(key, value, ttl)` at instant `now`: write the
entry with expiry `now + ttl` and `ttl_heap_.add(key, now + ttl)`
(`set_with_expiry` always returns true). -/
def set_ex (e : StorageEngine) (k v : String) (ttl now : ℕ) : StorageEngine :=
  { hash_table := e.hash_table.set_with_expiry k (Value.vstr v) ttl now,
    ttl_heap := e.ttl_heap.add k (now + ttl) }

/-- `StorageEngine::get(key)`: the stored value's string form when the hash
table returns a value whose tag is STRING, else nothing. -/
def get (e : StorageEngine) (k : String) : Option String :=
  match e.hash_table.get k with
  | some v => if v.is_string then some v.as_string else none
  | none => none

/-- `StorageEngine::del(key)`: delete from the table and, if something was
deleted, from the heap. -/
def del (e : StorageEngine) (k : String) : Bool × StorageEngine :=
  let p := e.hash_table.del k
  if p.2 then (true, ⟨p.1, e.ttl_heap.remove k⟩) else (false, ⟨p.1, e.ttl_heap⟩)

/-- `StorageEngine::exists(key)`. -/
def exists_ (e : StorageEngine) (k : String) : Bool :=
  e.hash_table.exists_ k

/-- `StorageEngine::expire(key, ttl)` at instant `now`. -/
def expire (e : StorageEngine) (k : String) (ttl now : ℕ) : Bool × StorageEngine :=
  if e.hash_table.exists_ k then
    let p := e.hash_table.expire k ttl now
    if p.2 then (true, ⟨p.1, e.ttl_heap.add k (now + ttl)⟩)
    else (false, ⟨p.1, e.ttl_heap⟩)
  else (false, e)

/-- `StorageEngine::ttl(key)`: `nullopt` when the key is absent, otherwise
the constant `std::chrono::seconds(0)` (the C++ comment says "For now, just
return a default value"). -/
def ttl (e : StorageEngine) (k : String) : Option ℕ :=
  if e.hash_table.exists_ k then some 0 else none

/-- `StorageEngine::zadd(key, member, score)`, inlining
`get_sorted_set(key, true)`: an existing sorted-set value is mutated through
its pointer; an existing value of another tag yields `nullptr` and zadd
returns false; a missing key gets a fresh sorted set installed with
`hash_table_.set` and then mutated. -/
def zadd (e : StorageEngine) (k member : String) (score : Score) :
    Bool × StorageEngine :=
  match e.hash_table.get k with
  | some (Value.vzset z) =>
    let p := z.add member score
    (p.1, { e with hash_table := e.hash_table.mutate_value k (Value.vzset p.2) })
  | some _ => (false, e)
  | none =>
    let p := SortedSet.empty.add member score
    (p.1, { e with hash_table := e.hash_table.set k (Value.vzset p.2) })

/-- `StorageEngine::zscore(key, member)` (via `get_sorted_set(key)`, which
yields `nullptr` for a missing key or a non-sorted-set value). -/
def zscore (e : StorageEngine) (k member : String) : Option Score :=
  match e.hash_table.get k with
  | some (Value.vzset z) => z.get_score member
  | _ => none

/-- `StorageEngine::zcard(key)`. -/
def zcard (e : StorageEngine) (k : String) : ℕ :=
  match e.hash_table.get k with
  | some (Value.vzset z) => z.size
  | _ => 0

/-- `StorageEngine::dbsize()`. -/
def dbsize (e : StorageEngine) : ℕ := e.hash_table.size

/-- `StorageEngine::process_expired_keys()` at instant `now` (the body of
one wake-up of the expiry worker): drain the heap and delete every returned
key from the hash table. -/
def process_expired_keys (e : StorageEngine) (now : ℕ) : StorageEngine :=
  let p := e.ttl_heap.get_expired_keys now
  { hash_table := p.1.foldl (fun h k => (h.del k).1) e.hash_table,
    ttl_heap := p.2 }

end StorageEngine

/-! ## Command handler — `src/commands/command_handler.cpp`

Only the handlers the claims touch are modelled.  The dispatcher's
tokenising, arity checks and `std::stod`/`std::stoi` parsing happen before
these functions run; `cmd_zadd` therefore receives its (score, member)
pairs already parsed.  Note `std::stod("nan")` succeeds and yields NaN, so
a `nan` token reaches the storage engine as a NaN score rather than
raising the "not a valid float" error. -/

/-- `struct CommandResponse`. -/
inductive CommandResponse where
  | str (s : String) : CommandResponse
  | int (n : ℤ) : CommandResponse
  | arr (l : List CommandResponse) : CommandResponse
  | err (s : String) : CommandResponse
  | nil : CommandResponse

/-- Whether a response is an ERROR reply. -/
def CommandResponse.isErr : CommandResponse → Bool
  | err _ => true
  | _ => false

/-- `CommandHandler::cmd_zadd` after parsing: fold over the (score, member)
pairs, incrementing `added` whenever `storage.zadd` returns true, and reply
with the integer `added`. -/
def cmd_zadd (e : StorageEngine) (key : String) (pairs : List (Score × String)) :
    CommandResponse × StorageEngine :=
  let r := pairs.foldl
    (fun (acc : ℤ × StorageEngine) p =>
      let q := acc.2.zadd key p.2 p.1
      (acc.1 + (if q.1 then 1 else 0), q.2))
    (0, e)
  (CommandResponse.int r.1, r.2)

/-- `CommandHandler::cmd_get`. -/
def cmd_get (e : StorageEngine) (key : String) : CommandResponse :=
  match e.get key with
  | some v => CommandResponse.str v
  | none => CommandResponse.nil

/-- `CommandHandler::cmd_ttl`: `-2` when the key does not exist, `-1` when
`storage.ttl` is empty, else the second count. -/
def cmd_ttl (e : StorageEngine) (key : String) : CommandResponse :=
  if ¬ e.exists_ key then CommandResponse.int (-2)
  else
    match e.ttl key with
    | none => CommandResponse.int (-1)
    | some n => CommandResponse.int n

/-! ## The indexed-heap order invariant -/

/-- Spec P6 heap order: for every index `i > 0`,
`heap[(i-1)/2].expiry ≤ heap[i].expiry`. -/
def heapOrd (l : List TTLEntry) : Prop :=
  ∀ i, i < l.length → 0 < i →
    (TTLHeap.entryAt l ((i - 1) / 2)).expiry ≤ (TTLHeap.entryAt l i).expiry

instance (l : List TTLEntry) : Decidable (heapOrd l) :=
  Nat.decidableBallLT l.length _

/-! ## Heap lemmas: array indexing under `set`, `swapL`, `dropLast` -/

namespace TTLHeap

theorem entryAt_cons_succ (b : TTLEntry) (t : List TTLEntry) (m : ℕ) :
    entryAt (b :: t) (m + 1) = entryAt t m := rfl

theorem entryAt_cons_zero (b : TTLEntry) (t : List TTLEntry) :
    entryAt (b :: t) 0 = b := rfl

theorem entryAt_set_self :
    ∀ (l : List TTLEntry) (i : ℕ) (a : TTLEntry), i < l.length →
      entryAt (l.set i a) i = a := by
  intro l
  induction l with
  | nil => intro i a h; simp at h
  | cons b t ih =>
    intro i a h
    cases i with
    | zero => rfl
    | succ n =>
      rw [List.set_cons_succ, entryAt_cons_succ]
      exact ih n a (by simpa using h)

theorem entryAt_set_ne :
    ∀ (l : List TTLEntry) (i : ℕ) (a : TTLEntry) (k : ℕ), k ≠ i →
      entryAt (l.set i a) k = entryAt l k := by
  intro l
  induction l with
  | nil => intro i a k _; rfl
  | cons b t ih =>
    intro i a k hk
    cases i with
    | zero =>
      cases k with
      | zero => exact absurd rfl hk
      | succ m => rfl
    | succ n =>
      cases k with
      | zero => rfl
      | succ m =>
        rw [List.set_cons_succ, entryAt_cons_succ, entryAt_cons_succ]
        exact ih n a m (by omega)

theorem entryAt_swapL_fst (l : List TTLEntry) (i j : ℕ) (hi : i < l.length) :
    entryAt (swapL l i j) i = entryAt l j := by
  unfold swapL
  by_cases hij : i = j
  · subst hij
    exact entryAt_set_self _ i _ (by simpa using hi)
  · rw [entryAt_set_ne _ _ _ _ hij, entryAt_set_self _ i _ hi]

theorem entryAt_swapL_snd (l : List TTLEntry) (i j : ℕ) (hj : j < l.length) :
    entryAt (swapL l i j) j = entryAt l i := by
  unfold swapL
  exact entryAt_set_self _ j _ (by simpa using hj)

theorem entryAt_swapL_other (l : List TTLEntry) (i j k : ℕ)
    (hki : k ≠ i) (hkj : k ≠ j) :
    entryAt (swapL l i j) k = entryAt l k := by
  unfold swapL
  rw [entryAt_set_ne _ _ _ _ hkj, entryAt_set_ne _ _ _ _ hki]

theorem entryAt_eq_getElem (l : List TTLEntry) (i : ℕ) (h : i < l.length) :
    entryAt l i = l[i] := by
  unfold entryAt
  exact List.getD_eq_getElem l _ h

theorem cons_set_perm :
    ∀ (t : List TTLEntry) (m : ℕ) (a : TTLEntry), m < t.length →
      (entryAt t m :: t.set m a).Perm (a :: t) := by
  intro t
  induction t with
  | nil => intro m a h; simp at h
  | cons b u ih =>
    intro m a h
    cases m with
    | zero =>
      rw [entryAt_cons_zero, List.set_cons_zero]
      exact List.Perm.swap a b u
    | succ n =>
      rw [entryAt_cons_succ, List.set_cons_succ]
      exact (List.Perm.swap b (entryAt u n) (u.set n a)).trans
        (((ih n a (by simpa using h)).cons b).trans (List.Perm.swap a b u))

theorem swapL_comm (l : List TTLEntry) (i j : ℕ) (hij : i ≠ j) :
    swapL l i j = swapL l j i := by
  unfold swapL
  exact (List.set_comm _ _ _ (Ne.symm hij)).symm

theorem swapL_perm :
    ∀ (l : List TTLEntry) (i j : ℕ), i < l.length → j < l.length →
      (swapL l i j).Perm l := by
  intro l
  induction l with
  | nil => intro i j hi _; simp at hi
  | cons b t ih =>
    intro i j hi hj
    cases i with
    | zero =>
      cases j with
      | zero =>
        unfold swapL
        simp only [entryAt_cons_zero, List.set_cons_zero]
        exact List.Perm.refl _
      | succ m =>
        show ((((b :: t).set 0 (entryAt t m)).set (m + 1) b)).Perm (b :: t)
        rw [List.set_cons_zero, List.set_cons_succ]
        exact cons_set_perm t m b (by simpa using hj)
    | succ n =>
      cases j with
      | zero =>
        rw [swapL_comm _ _ _ (by omega)]
        show (((b :: t).set 0 (entryAt t n)).set (n + 1) b).Perm (b :: t)
        rw [List.set_cons_zero, List.set_cons_succ]
        exact cons_set_perm t n b (by simpa using hi)
      | succ m =>
        show (swapL (b :: t) (n + 1) (m + 1)).Perm (b :: t)
        unfold swapL
        rw [entryAt_cons_succ, entryAt_cons_succ, List.set_cons_succ,
          List.set_cons_succ]
        exact (ih n m (by simpa using hi) (by simpa using hj)).cons b

theorem entryAt_dropLast (l : List TTLEntry) (k : ℕ) (h : k < l.length - 1) :
    entryAt l.dropLast k = entryAt l k := by
  rw [entryAt_eq_getElem _ _ (by simpa using h),
    entryAt_eq_getElem _ _ (by omega)]
  exact List.getElem_dropLast l k (by simpa using h)

end TTLHeap

/-! ## Heap order facts -/

theorem heapOrd_root_le (l : List TTLEntry) (hl : heapOrd l) :
    ∀ j, j < l.length →
      (TTLHeap.entryAt l 0).expiry ≤ (TTLHeap.entryAt l j).expiry := by
  intro j
  induction j using Nat.strong_induction_on with
  | _ j ih =>
    intro hj
    rcases Nat.eq_zero_or_pos j with h0 | h0
    · subst h0; exact le_refl _
    · exact le_trans (ih ((j - 1) / 2) (by omega) (by omega)) (hl j hj h0)

namespace TTLHeap

/-- Characterisation of `smallestIdx` when it picks a child: the child index
is in range, strictly smaller in expiry than slot `i`, and minimal among the
children of `i`. -/
theorem smallestIdx_spec (l : List TTLEntry) (i : ℕ) :
    smallestIdx l i = i ∨
    (i < smallestIdx l i ∧ smallestIdx l i < l.length ∧
     (smallestIdx l i = 2 * i + 1 ∨ smallestIdx l i = 2 * i + 2) ∧
     (entryAt l (smallestIdx l i)).expiry < (entryAt l i).expiry ∧
     ∀ c, (c = 2 * i + 1 ∨ c = 2 * i + 2) → c < l.length →
       (entryAt l (smallestIdx l i)).expiry ≤ (entryAt l c).expiry) := by
  unfold smallestIdx
  dsimp only
  by_cases h1 : 2 * i + 1 < l.length ∧
      (entryAt l (2 * i + 1)).expiry < (entryAt l i).expiry
  · rw [if_pos h1]
    by_cases h2 : 2 * i + 2 < l.length ∧
        (entryAt l (2 * i + 2)).expiry < (entryAt l (2 * i + 1)).expiry
    · rw [if_pos h2]
      right
      refine ⟨by omega, h2.1, Or.inr rfl, lt_trans h2.2 h1.2, ?_⟩
      intro c hc hcl
      rcases hc with rfl | rfl
      · exact le_of_lt h2.2
      · exact le_refl _
    · rw [if_neg h2]
      right
      refine ⟨by omega, h1.1, Or.inl rfl, h1.2, ?_⟩
      intro c hc hcl
      rcases hc with rfl | rfl
      · exact le_refl _
      · have := not_and.mp h2 hcl
        omega
  · rw [if_neg h1]
    by_cases h2 : 2 * i + 2 < l.length ∧
        (entryAt l (2 * i + 2)).expiry < (entryAt l i).expiry
    · rw [if_pos h2]
      right
      refine ⟨by omega, h2.1, Or.inr rfl, h2.2, ?_⟩
      intro c hc hcl
      rcases hc with rfl | rfl
      · have := not_and.mp h1 hcl
        omega
      · exact le_refl _
    · rw [if_neg h2]
      left; rfl

/-- When `smallestIdx` stays put, slot `i` is no larger than its in-range
children. -/
theorem smallestIdx_self_le (l : List TTLEntry) (i : ℕ)
    (h : smallestIdx l i = i) :
    ∀ c, (c = 2 * i + 1 ∨ c = 2 * i + 2) → c < l.length →
      (entryAt l i).expiry ≤ (entryAt l c).expiry := by
  intro c hc hcl
  by_contra hlt
  push_neg at hlt
  unfold smallestIdx at h
  dsimp only at h
  rcases hc with rfl | rfl
  · rw [if_pos (show 2 * i + 1 < l.length ∧
        (entryAt l (2 * i + 1)).expiry < (entryAt l i).expiry
        from ⟨hcl, hlt⟩)] at h
    by_cases h2 : 2 * i + 2 < l.length ∧
        (entryAt l (2 * i + 2)).expiry < (entryAt l (2 * i + 1)).expiry
    · rw [if_pos h2] at h; omega
    · rw [if_neg h2] at h; omega
  · by_cases h1 : 2 * i + 1 < l.length ∧
        (entryAt l (2 * i + 1)).expiry < (entryAt l i).expiry
    · rw [if_pos h1] at h
      by_cases h2 : 2 * i + 2 < l.length ∧
          (entryAt l (2 * i + 2)).expiry < (entryAt l (2 * i + 1)).expiry
      · rw [if_pos h2] at h; omega
      · rw [if_neg h2] at h; omega
    · rw [if_neg h1] at h
      rw [if_pos (show 2 * i + 2 < l.length ∧
          (entryAt l (2 * i + 2)).expiry < (entryAt l i).expiry
          from ⟨hcl, hlt⟩)] at h
      omega

/-- Sift-down precondition: every parent/child edge holds except possibly
the edges out of the hole `i`, and (when the hole has a parent) the hole's
children already fit below the hole's parent. -/
def Pre (l : List TTLEntry) (i : ℕ) : Prop :=
  (∀ j, j < l.length → 0 < j → (j - 1) / 2 ≠ i →
    (entryAt l ((j - 1) / 2)).expiry ≤ (entryAt l j).expiry) ∧
  (0 < i → ∀ j, j < l.length → (j - 1) / 2 = i →
    (entryAt l ((i - 1) / 2)).expiry ≤ (entryAt l j).expiry)

/-- One swap of the sift-down loop re-establishes the precondition at the
child the hole moved to. -/
theorem pre_swap (l : List TTLEntry) (i sm : ℕ) (hp : Pre l i)
    (hgt : i < sm) (hlen : sm < l.length) (hil : i < l.length)
    (hchild : sm = 2 * i + 1 ∨ sm = 2 * i + 2)
    (hlt : (entryAt l sm).expiry < (entryAt l i).expiry)
    (hmin : ∀ c, (c = 2 * i + 1 ∨ c = 2 * i + 2) → c < l.length →
      (entryAt l sm).expiry ≤ (entryAt l c).expiry) :
    Pre (swapL l i sm) sm := by
  constructor
  · intro j hj h0 hpj
    rw [swapL_length] at hj
    by_cases hji : j = i
    · subst hji
      rw [entryAt_swapL_other _ _ _ _ (by omega) (by omega),
        entryAt_swapL_fst _ _ _ hil]
      exact hp.2 h0 sm hlen (by omega)
    · by_cases hjsm : j = sm
      · subst hjsm
        have hpar : (j - 1) / 2 = i := by omega
        rw [hpar, entryAt_swapL_fst _ _ _ hil, entryAt_swapL_snd _ _ _ hlen]
        exact le_of_lt hlt
      · by_cases hpji : (j - 1) / 2 = i
        · rw [hpji, entryAt_swapL_fst _ _ _ hil,
            entryAt_swapL_other _ _ _ _ hji hjsm]
          exact hmin j (by omega) hj
        · rw [entryAt_swapL_other _ _ _ _ hpji hpj,
            entryAt_swapL_other _ _ _ _ hji hjsm]
          exact hp.1 j hj h0 hpji
  · intro _ j hj hpj
    rw [swapL_length] at hj
    have hpsm : (sm - 1) / 2 = i := by omega
    rw [hpsm]
    have hji : j ≠ i := by omega
    have hjsm : j ≠ sm := by omega
    rw [entryAt_swapL_fst _ _ _ hil, entryAt_swapL_other _ _ _ _ hji hjsm]
    have h5 := hp.1 j hj (by omega) (by omega)
    rw [hpj] at h5
    exact h5

/-- The fuelled sift-down loop, run with enough fuel from a state satisfying
`Pre`, produces a heap-ordered permutation of its input. -/
theorem siftDown_spec :
    ∀ (fuel : ℕ) (s : TTLHeap) (i : ℕ),
      s.heap.length - i ≤ fuel → Pre s.heap i →
      heapOrd (heapifyDownGo fuel s i).heap ∧
      (heapifyDownGo fuel s i).heap.Perm s.heap := by
  intro fuel
  induction fuel with
  | zero =>
    intro s i hf hp
    show heapOrd s.heap ∧ s.heap.Perm s.heap
    refine ⟨?_, List.Perm.refl _⟩
    intro j hj h0
    by_cases hpj : (j - 1) / 2 = i
    · exfalso; omega
    · exact hp.1 j hj h0 hpj
  | succ n ih =>
    intro s i hf hp
    have hred : heapifyDownGo (n + 1) s i =
        if smallestIdx s.heap i = i then s
        else heapifyDownGo n (swap_entries s i (smallestIdx s.heap i))
          (smallestIdx s.heap i) := rfl
    by_cases hsm : smallestIdx s.heap i = i
    · rw [hred, if_pos hsm]
      refine ⟨?_, List.Perm.refl _⟩
      intro j hj h0
      by_cases hpj : (j - 1) / 2 = i
      · rw [hpj]
        exact smallestIdx_self_le _ _ hsm j (by omega) hj
      · exact hp.1 j hj h0 hpj
    · rcases smallestIdx_spec s.heap i with h | hspec
      · exact absurd h hsm
      · obtain ⟨hgt, hlen, hchild, hlt, hmin⟩ := hspec
        have hil : i < s.heap.length := by omega
        have hpre : Pre (swapL s.heap i (smallestIdx s.heap i))
            (smallestIdx s.heap i) :=
          pre_swap s.heap i (smallestIdx s.heap i) hp hgt hlen hil hchild hlt hmin
        have hrec := ih (swap_entries s i (smallestIdx s.heap i))
          (smallestIdx s.heap i)
          (by rw [swap_entries_heap, swapL_length]; omega)
          (by rw [swap_entries_heap]; exact hpre)
        rw [hred, if_neg hsm]
        refine ⟨hrec.1, hrec.2.trans ?_⟩
        rw [swap_entries_heap]
        exact swapL_perm _ _ _ hil hlen

/-- Swapping the root to the back decomposes the array as the popped prefix
followed by the old root. -/
theorem pop_decomp (l : List TTLEntry) (hne : l ≠ []) :
    swapL l 0 (l.length - 1)
      = (swapL l 0 (l.length - 1)).dropLast ++ [entryAt l 0] := by
  have h0 : 0 < l.length := List.length_pos.mpr hne
  have hlen : (swapL l 0 (l.length - 1)).length = l.length := swapL_length _ _ _
  have hne' : swapL l 0 (l.length - 1) ≠ [] := by
    intro hx
    exact hne (List.length_eq_zero.mp (by rw [← hlen, hx]; rfl))
  have hlast : (swapL l 0 (l.length - 1)).getLast hne' = entryAt l 0 := by
    rw [List.getLast_eq_getElem,
      ← entryAt_eq_getElem _ _ (by rw [hlen]; omega), hlen]
    exact entryAt_swapL_snd l 0 (l.length - 1) (by omega)
  conv_lhs => rw [← List.dropLast_append_getLast hne']
  rw [hlast]

/-- Popping the root: the old root together with the shortened array is a
permutation of the original array. -/
theorem pop_perm (l : List TTLEntry) (hne : l ≠ []) :
    (entryAt l 0 :: (swapL l 0 (l.length - 1)).dropLast).Perm l := by
  have h0 : 0 < l.length := List.length_pos.mpr hne
  have h1 : (swapL l 0 (l.length - 1)).Perm l :=
    swapL_perm l 0 (l.length - 1) h0 (by omega)
  have h2 := List.perm_append_singleton (entryAt l 0)
    ((swapL l 0 (l.length - 1)).dropLast)
  rw [← pop_decomp l hne] at h2
  exact (h2.symm.trans h1)

/-- After the pop swap, the shortened array satisfies the sift-down
precondition at the root. -/
theorem pop_pre (l : List TTLEntry) (hl : heapOrd l) :
    Pre ((swapL l 0 (l.length - 1)).dropLast) 0 := by
  constructor
  · intro j hj hj0 hpj
    have hjl : j < l.length - 1 := by
      simpa [swapL_length] using hj
    rw [entryAt_dropLast _ _ (by rw [swapL_length]; omega),
      entryAt_dropLast _ _ (by rw [swapL_length]; omega),
      entryAt_swapL_other l 0 (l.length - 1) ((j - 1) / 2) (by omega) (by omega),
      entryAt_swapL_other l 0 (l.length - 1) j (by omega) (by omega)]
    exact hl j (by omega) hj0
  · intro hfalse
    exact absurd hfalse (by omega)

/-- `popState` on a non-empty heap-ordered state: the array shortens by one,
stays heap-ordered, and the popped root plus the result is a permutation of
the original array. -/
theorem popState_spec (s : TTLHeap) (hl : heapOrd s.heap) (hne : s.heap ≠ []) :
    (popState s).heap.length = s.heap.length - 1 ∧
    heapOrd (popState s).heap ∧
    (entryAt s.heap 0 :: (popState s).heap).Perm s.heap := by
  have h0 : 0 < s.heap.length := List.length_pos.mpr hne
  have hdl : (swap_entries s 0 (s.heap.length - 1)).heap.dropLast
      = (swapL s.heap 0 (s.heap.length - 1)).dropLast := by
    rw [swap_entries_heap]
  have hlen2 : (swapL s.heap 0 (s.heap.length - 1)).dropLast.length
      = s.heap.length - 1 := by
    simp [swapL_length]
  by_cases he : ((swap_entries s 0 (s.heap.length - 1)).heap.dropLast).isEmpty
  · have hps : popState s
        = ⟨(swap_entries s 0 (s.heap.length - 1)).heap.dropLast,
           assocErase (swap_entries s 0 (s.heap.length - 1)).key_to_index
             (entryAt s.heap 0).key⟩ := by
      unfold popState
      dsimp only
      rw [if_pos he]
    have hnil : (swapL s.heap 0 (s.heap.length - 1)).dropLast = [] := by
      rw [← hdl]
      exact List.isEmpty_iff.mp he
    rw [hps]
    refine ⟨?_, ?_, ?_⟩
    · show (swap_entries s 0 (s.heap.length - 1)).heap.dropLast.length
        = s.heap.length - 1
      rw [hdl, hlen2]
    · show heapOrd (swap_entries s 0 (s.heap.length - 1)).heap.dropLast
      rw [hdl, hnil]
      intro j hj _
      simp at hj
    · show (entryAt s.heap 0
        :: (swap_entries s 0 (s.heap.length - 1)).heap.dropLast).Perm s.heap
      rw [hdl]
      exact pop_perm s.heap hne
  · have hps : popState s
        = heapify_down ⟨(swap_entries s 0 (s.heap.length - 1)).heap.dropLast,
            assocErase (swap_entries s 0 (s.heap.length - 1)).key_to_index
              (entryAt s.heap 0).key⟩ 0 := by
      unfold popState
      dsimp only
      rw [if_neg he]
    have hpre : Pre ((⟨(swap_entries s 0 (s.heap.length - 1)).heap.dropLast,
        assocErase (swap_entries s 0 (s.heap.length - 1)).key_to_index
          (entryAt s.heap 0).key⟩ : TTLHeap)).heap 0 := by
      show Pre ((swap_entries s 0 (s.heap.length - 1)).heap.dropLast) 0
      rw [hdl]
      exact pop_pre s.heap hl
    have hsd := siftDown_spec
      ((⟨(swap_entries s 0 (s.heap.length - 1)).heap.dropLast,
        assocErase (swap_entries s 0 (s.heap.length - 1)).key_to_index
          (entryAt s.heap 0).key⟩ : TTLHeap)).heap.length
      ⟨(swap_entries s 0 (s.heap.length - 1)).heap.dropLast,
        assocErase (swap_entries s 0 (s.heap.length - 1)).key_to_index
          (entryAt s.heap 0).key⟩ 0 (by omega) hpre
    rw [hps]
    have hperm1 : (heapify_down
        ⟨(swap_entries s 0 (s.heap.length - 1)).heap.dropLast,
          assocErase (swap_entries s 0 (s.heap.length - 1)).key_to_index
            (entryAt s.heap 0).key⟩ 0).heap.Perm
        ((swapL s.heap 0 (s.heap.length - 1)).dropLast) := by
      have := hsd.2
      rw [← hdl]
      exact this
    refine ⟨?_, hsd.1, ?_⟩
    · rw [hperm1.length_eq, hlen2]
    · exact (hperm1.cons (entryAt s.heap 0)).trans (pop_perm s.heap hne)

/-- The fuelled drain loop, run with enough fuel on a heap-ordered state:
the returned keys are the keys of the entries with expiry `≤ now`, listed in
non-decreasing expiry order, and the remaining array is a heap-ordered
permutation of the entries with expiry `> now`. -/
theorem drainGo_spec :
    ∀ (fuel : ℕ) (s : TTLHeap) (now : ℕ),
      s.heap.length ≤ fuel → heapOrd s.heap →
      ∃ es : List TTLEntry,
        (drainGo fuel s now).1 = es.map TTLEntry.key ∧
        es.Perm (s.heap.filter (fun e => e.expiry ≤ now)) ∧
        List.Sorted (fun a b => a ≤ b) (es.map TTLEntry.expiry) ∧
        (drainGo fuel s now).2.heap.Perm
          (s.heap.filter (fun e => now < e.expiry)) ∧
        heapOrd (drainGo fuel s now).2.heap := by
  intro fuel
  induction fuel with
  | zero =>
    intro s now hf hl
    have hnil : s.heap = [] := List.length_eq_zero.mp (by omega)
    refine ⟨[], rfl, ?_, by simp, ?_, ?_⟩
    · rw [hnil]; exact List.Perm.refl _
    · show s.heap.Perm (s.heap.filter (fun e => now < e.expiry))
      rw [hnil]; exact List.Perm.refl _
    · show heapOrd s.heap
      exact hl
  | succ n ih =>
    intro s now hf hl
    by_cases hg : s.heap ≠ [] ∧ (entryAt s.heap 0).expiry ≤ now
    · have hne := hg.1
      obtain ⟨hplen, hpord, hpperm⟩ := popState_spec s hl hne
      have hred : drainGo (n + 1) s now
          = ((entryAt s.heap 0).key :: (drainGo n (popState s) now).1,
             (drainGo n (popState s) now).2) := by
        show (if s.heap ≠ [] ∧ (entryAt s.heap 0).expiry ≤ now
          then ((entryAt s.heap 0).key :: (drainGo n (popState s) now).1,
                (drainGo n (popState s) now).2)
          else ([], s)) = _
        rw [if_pos hg]
      obtain ⟨es', hkeys, hesperm, hsort, hremperm, hremord⟩ :=
        ih (popState s) now (by omega) hpord
      have hmem_s : ∀ e ∈ (popState s).heap, e ∈ s.heap := by
        intro e hee
        exact hpperm.subset (List.mem_cons_of_mem _ hee)
      refine ⟨entryAt s.heap 0 :: es', ?_, ?_, ?_, ?_, ?_⟩
      · rw [hred, List.map_cons, ← hkeys]
      · have hfil := (hpperm.symm).filter (fun e => decide (e.expiry ≤ now))
        rw [List.filter_cons] at hfil
        rw [if_pos (by simpa using hg.2)] at hfil
        exact (hesperm.cons (entryAt s.heap 0)).trans hfil.symm
      · rw [List.map_cons, List.sorted_cons]
        refine ⟨?_, hsort⟩
        intro b hb
        obtain ⟨e, he, rfl⟩ := List.mem_map.mp hb
        have he2 : e ∈ (popState s).heap := by
          have := (hesperm.mem_iff).mp he
          exact (List.mem_filter.mp this).1
        have he3 : e ∈ s.heap := hmem_s e he2
        obtain ⟨k, hk, hke⟩ := List.mem_iff_getElem.mp he3
        have h4 := heapOrd_root_le s.heap hl k hk
        rw [entryAt_eq_getElem _ _ hk, hke] at h4
        exact h4
      · rw [hred]
        have hfil := (hpperm.symm).filter (fun e => decide (now < e.expiry))
        rw [List.filter_cons] at hfil
        rw [if_neg (by simpa using Nat.not_lt.mpr hg.2)] at hfil
        exact hremperm.trans hfil.symm
      · rw [hred]
        exact hremord
    · have hred : drainGo (n + 1) s now = ([], s) := by
        show (if s.heap ≠ [] ∧ (entryAt s.heap 0).expiry ≤ now
          then ((entryAt s.heap 0).key :: (drainGo n (popState s) now).1,
                (drainGo n (popState s) now).2)
          else ([], s)) = ([], s)
        rw [if_neg hg]
      have hall : ∀ e ∈ s.heap, now < e.expiry := by
        intro e he
        have hne : s.heap ≠ [] := by
          intro hx; rw [hx] at he; simp at he
        have hroot : now < (entryAt s.heap 0).expiry := by
          rcases not_and_or.mp hg with hx | hx
          · exact absurd hne (by simpa using hx)
          · omega
        obtain ⟨k, hk, hke⟩ := List.mem_iff_getElem.mp he
        have h4 := heapOrd_root_le s.heap hl k hk
        rw [entryAt_eq_getElem _ _ hk, hke] at h4
        omega
      have hfil1 : s.heap.filter (fun e => decide (e.expiry ≤ now)) = [] := by
        rw [List.filter_eq_nil_iff]
        intro a ha
        simpa using Nat.not_le.mpr (hall a ha)
      have hfil2 : s.heap.filter (fun e => decide (now < e.expiry)) = s.heap := by
        rw [List.filter_eq_self]
        intro a ha
        simpa using hall a ha
      refine ⟨[], by rw [hred]; rfl, ?_, by simp, ?_, ?_⟩
      · rw [hfil1]
      · rw [hred, hfil2]
      · rw [hred]
        exact hl

end TTLHeap

/-! ## AVL structural invariants

The template `AVLTree<K, V>` is written against a strict total order on `K`
(the comparator contract of `operator<`/`operator>`); the invariant proofs
therefore instantiate the comparison parameters with a linear order. -/

/-- The template's `key < node->key` for an ordered key type. -/
def dlt {K : Type} [LinearOrder K] : K → K → Bool :=
  fun a b => decide (a < b)

/-- The template's `key > node->key` for an ordered key type. -/
def dgt {K : Type} [LinearOrder K] : K → K → Bool :=
  fun a b => decide (b < a)

namespace AVL

variable {K V : Type}

/-- `p` holds for every key in the tree. -/
def All (p : K → Prop) : AVL K V → Prop
  | nil => True
  | node l k _ _ r => All p l ∧ p k ∧ All p r

/-- Binary-search-tree ordering. -/
def Ord [LT K] : AVL K V → Prop
  | nil => True
  | node l k _ _ r => Ord l ∧ Ord r ∧ All (· < k) l ∧ All (fun x => k < x) r

/-- Every node's recorded `height` equals one plus the maximum of its
children's recorded heights. -/
def HOk : AVL K V → Prop
  | nil => True
  | node l _ _ h r => HOk l ∧ HOk r ∧ h = 1 + max (height l) (height r)

/-- AVL balance in inequality form: the children's heights differ by at
most one, at every node. -/
def Bal : AVL K V → Prop
  | nil => True
  | node l _ _ _ r => Bal l ∧ Bal r ∧ height l ≤ height r + 1 ∧
      height r ≤ height l + 1

/-- AVL balance in the claim's form: every node's balance factor is
`-1`, `0` or `1`. -/
def BalF : AVL K V → Prop
  | nil => True
  | node l _ _ _ r => BalF l ∧ BalF r ∧
      ((height l : ℤ) - height r = -1 ∨ (height l : ℤ) - height r = 0 ∨
       (height l : ℤ) - height r = 1)

theorem bal_iff_balF : ∀ t : AVL K V, Bal t ↔ BalF t := by
  intro t
  induction t with
  | nil => exact Iff.rfl
  | node l k v h r ihl ihr =>
    show (Bal l ∧ Bal r ∧ _ ∧ _) ↔ (BalF l ∧ BalF r ∧ _)
    rw [ihl, ihr]
    constructor
    · rintro ⟨h1, h2, h3, h4⟩
      exact ⟨h1, h2, by omega⟩
    · rintro ⟨h1, h2, h3⟩
      exact ⟨h1, h2, by omega, by omega⟩

theorem All_mp {p q : K → Prop} (hpq : ∀ x, p x → q x) :
    ∀ t : AVL K V, All p t → All q t := by
  intro t
  induction t with
  | nil => intro _; trivial
  | node l k v h r ihl ihr =>
    rintro ⟨h1, h2, h3⟩
    exact ⟨ihl h1, hpq k h2, ihr h3⟩

theorem All_mp₂ {p q w : K → Prop} (hpq : ∀ x, p x → q x → w x) :
    ∀ t : AVL K V, All p t → All q t → All w t := by
  intro t
  induction t with
  | nil => intro _ _; trivial
  | node l k v h r ihl ihr =>
    rintro ⟨h1, h2, h3⟩ ⟨h4, h5, h6⟩
    exact ⟨ihl h1 h4, hpq k h2 h5, ihr h3 h6⟩

/-- `rotate_right` on an explicitly decomposed node. -/
theorem rotR_node (a : AVL K V) (xk : K) (xv : V) (hx : ℕ) (b : AVL K V)
    (yk : K) (yv : V) (hy : ℕ) (c : AVL K V) :
    rotateR (node (node a xk xv hx b) yk yv hy c)
      = node a xk xv (1 + max (height a) (1 + max (height b) (height c)))
          (node b yk yv (1 + max (height b) (height c)) c) := rfl

/-- `rotate_left` on an explicitly decomposed node. -/
theorem rotL_node (a : AVL K V) (xk : K) (xv : V) (hx : ℕ) (b : AVL K V)
    (yk : K) (yv : V) (hy : ℕ) (c : AVL K V) :
    rotateL (node a xk xv hx (node b yk yv hy c))
      = node (node a xk xv (1 + max (height a) (height b)) b) yk yv
          (1 + max (1 + max (height a) (height b)) (height c)) c := rfl

/-- `balance` on a node, with its branch structure exposed. -/
theorem balance_node_eq (l : AVL K V) (k : K) (v : V) (h : ℕ) (r : AVL K V) :
    balance (node l k v h r) =
      (if (height l : ℤ) - height r > 1 then
        if bfac l < 0 then
          rotateR (node (rotateL l) k v (1 + max (height l) (height r)) r)
        else rotateR (node l k v (1 + max (height l) (height r)) r)
      else if (height l : ℤ) - height r < -1 then
        if bfac r > 0 then
          rotateL (node l k v (1 + max (height l) (height r)) (rotateR r))
        else rotateL (node l k v (1 + max (height l) (height r)) r)
      else node l k v (1 + max (height l) (height r)) r) := rfl

theorem height_nil : height (nil : AVL K V) = 0 := rfl

theorem height_node (l : AVL K V) (k : K) (v : V) (h : ℕ) (r : AVL K V) :
    height (node l k v h r) = h := rfl

theorem cnt_nil : cnt (nil : AVL K V) = 0 := rfl

theorem cnt_node (l : AVL K V) (k : K) (v : V) (h : ℕ) (r : AVL K V) :
    cnt (node l k v h r) = cnt l + cnt r + 1 := rfl

theorem bfac_node (l : AVL K V) (k : K) (v : V) (h : ℕ) (r : AVL K V) :
    bfac (node l k v h r) = (height l : ℤ) - height r := rfl

/-- The structural half of the AVL balance argument: rebalancing a node
whose AVL subtrees have height difference at most two yields height-correct,
balanced output of the expected node count, with tight height bounds (and
the exact height `1 + max` when no rotation happens). -/
theorem balance_spec (l r : AVL K V) (k : K) (v : V) (h : ℕ)
    (hl : HOk l) (hr : HOk r) (bl : Bal l) (br : Bal r)
    (hd1 : height l ≤ height r + 2) (hd2 : height r ≤ height l + 2) :
    HOk (balance (node l k v h r)) ∧ Bal (balance (node l k v h r)) ∧
    cnt (balance (node l k v h r)) = cnt l + cnt r + 1 ∧
    max (height l) (height r) ≤ height (balance (node l k v h r)) ∧
    height (balance (node l k v h r)) ≤ 1 + max (height l) (height r) ∧
    (height l ≤ height r + 1 → height r ≤ height l + 1 →
      height (balance (node l k v h r)) = 1 + max (height l) (height r)) := by
  rw [balance_node_eq]
  by_cases c1 : (height l : ℤ) - height r > 1
  · rw [if_pos c1]
    cases l with
    | nil => exfalso; rw [height_nil] at c1; omega
    | node a xk xv hx b =>
      obtain ⟨hha, hhb, hhx⟩ := hl
      obtain ⟨ba, bb, bl1, bl2⟩ := bl
      rw [height_node] at c1 hd1 hd2
      by_cases c2 : bfac (node a xk xv hx b) < 0
      · -- left-right double rotation
        rw [bfac_node] at c2
        cases b with
        | nil => exfalso; rw [height_nil] at c2; omega
        | node b1 zk zv hz b2 =>
          obtain ⟨hb1, hb2, hhz⟩ := hhb
          obtain ⟨bb1, bb2, bb3, bb4⟩ := bb
          rw [height_node] at c2 hhx bl1 bl2
          rw [if_pos (by rw [bfac_node, height_node]; exact c2), rotL_node,
            rotR_node]
          refine ⟨⟨⟨hha, hb1, rfl⟩, ⟨hb2, hr, rfl⟩, rfl⟩,
            ⟨⟨ba, bb1, ?_, ?_⟩, ⟨bb2, br, ?_, ?_⟩, ?_, ?_⟩,
            ?_, ?_, ?_, ?_⟩ <;>
            (try simp only [height_node, height_nil, cnt_node, cnt_nil]) <;> omega
      · -- left-left single rotation
        rw [bfac_node, not_lt] at c2
        rw [if_neg (by rw [bfac_node]; omega), rotR_node]
        refine ⟨⟨hha, ⟨hhb, hr, rfl⟩, rfl⟩,
          ⟨ba, ⟨bb, br, ?_, ?_⟩, ?_, ?_⟩,
          ?_, ?_, ?_, ?_⟩ <;>
          (try simp only [height_node, height_nil, cnt_node, cnt_nil]) <;> omega
  · rw [if_neg c1]
    by_cases c3 : (height l : ℤ) - height r < -1
    · rw [if_pos c3]
      cases r with
      | nil => exfalso; rw [height_nil] at c3; omega
      | node b yk yv hy c =>
        obtain ⟨hhb, hhc, hhy⟩ := hr
        obtain ⟨bb, bc, br1, br2⟩ := br
        rw [height_node] at c1 c3 hd1 hd2
        by_cases c4 : bfac (node b yk yv hy c) > 0
        · -- right-left double rotation
          rw [bfac_node] at c4
          cases b with
          | nil => exfalso; rw [height_nil] at c4; omega
          | node b1 zk zv hz b2 =>
            obtain ⟨hb1, hb2, hhz⟩ := hhb
            obtain ⟨bb1, bb2, bb3, bb4⟩ := bb
            rw [height_node] at c4 hhy br1 br2
            rw [if_pos (by rw [bfac_node, height_node]; exact c4), rotR_node,
              rotL_node]
            refine ⟨⟨⟨hl, hb1, rfl⟩, ⟨hb2, hhc, rfl⟩, rfl⟩,
              ⟨⟨bl, bb1, ?_, ?_⟩, ⟨bb2, bc, ?_, ?_⟩, ?_, ?_⟩,
              ?_, ?_, ?_, ?_⟩ <;>
              (try simp only [height_node, height_nil, cnt_node, cnt_nil]) <;> omega
        · -- right-right single rotation
          rw [bfac_node, not_lt] at c4
          rw [if_neg (by rw [bfac_node]; omega), rotL_node]
          refine ⟨⟨⟨hl, hhb, rfl⟩, hhc, rfl⟩,
            ⟨⟨bl, bb, ?_, ?_⟩, bc, ?_, ?_⟩,
            ?_, ?_, ?_, ?_⟩ <;>
            (try simp only [height_node, height_nil, cnt_node, cnt_nil]) <;> omega
    · rw [if_neg c3]
      refine ⟨⟨hl, hr, rfl⟩, ⟨bl, br, ?_, ?_⟩, ?_, ?_, ?_, ?_⟩ <;>
        (try simp only [height_node, height_nil, cnt_node, cnt_nil]) <;>
        (first | omega | exact fun _ _ => trivial)

/-- `balance` preserves any per-key property. -/
theorem balance_all (p : K → Prop) (l r : AVL K V) (k : K) (v : V) (h : ℕ)
    (hal : All p l) (hak : p k) (har : All p r) :
    All p (balance (node l k v h r)) := by
  rw [balance_node_eq]
  by_cases c1 : (height l : ℤ) - height r > 1
  · rw [if_pos c1]
    cases l with
    | nil => exfalso; rw [height_nil] at c1; omega
    | node a xk xv hx b =>
      obtain ⟨ha1, ha2, ha3⟩ := hal
      by_cases c2 : bfac (node a xk xv hx b) < 0
      · rw [if_pos c2]
        rw [bfac_node] at c2
        cases b with
        | nil => exfalso; rw [height_nil] at c2; omega
        | node b1 zk zv hz b2 =>
          obtain ⟨hb1, hb2, hb3⟩ := ha3
          rw [rotL_node, rotR_node]
          exact ⟨⟨ha1, ha2, hb1⟩, hb2, ⟨hb3, hak, har⟩⟩
      · rw [if_neg c2, rotR_node]
        exact ⟨ha1, ha2, ⟨ha3, hak, har⟩⟩
  · rw [if_neg c1]
    by_cases c3 : (height l : ℤ) - height r < -1
    · rw [if_pos c3]
      cases r with
      | nil => exfalso; rw [height_nil] at c3; omega
      | node b yk yv hy c =>
        obtain ⟨hr1, hr2, hr3⟩ := har
        by_cases c4 : bfac (node b yk yv hy c) > 0
        · rw [if_pos c4]
          rw [bfac_node] at c4
          cases b with
          | nil => exfalso; rw [height_nil] at c4; omega
          | node b1 zk zv hz b2 =>
            obtain ⟨hc1, hc2, hc3⟩ := hr1
            rw [rotR_node, rotL_node]
            exact ⟨⟨hal, hak, hc1⟩, hc2, ⟨hc3, hr2, hr3⟩⟩
        · rw [if_neg c4, rotL_node]
          exact ⟨⟨hal, hak, hr1⟩, hr2, hr3⟩
    · rw [if_neg c3]
      exact ⟨hal, hak, har⟩

/-- `balance` preserves binary-search-tree ordering, given the usual key
bounds at the root. -/
theorem balance_ord [LinearOrder K] (l r : AVL K V) (k : K) (v : V) (h : ℕ)
    (hol : Ord l) (hor : Ord r)
    (hbl : All (· < k) l) (hbr : All (fun x => k < x) r) :
    Ord (balance (node l k v h r)) := by
  rw [balance_node_eq]
  by_cases c1 : (height l : ℤ) - height r > 1
  · rw [if_pos c1]
    cases l with
    | nil => exfalso; rw [height_nil] at c1; omega
    | node a xk xv hx b =>
      obtain ⟨oa, ob, oab, obb⟩ := hol
      obtain ⟨ka, kxk, kb⟩ := hbl
      by_cases c2 : bfac (node a xk xv hx b) < 0
      · rw [if_pos c2]
        rw [bfac_node] at c2
        cases b with
        | nil => exfalso; rw [height_nil] at c2; omega
        | node b1 zk zv hz b2 =>
          obtain ⟨ob1, ob2, ob1z, ob2z⟩ := ob
          obtain ⟨xb1, xzk, xb2⟩ := obb
          obtain ⟨kb1, kzk, kb2⟩ := kb
          rw [rotL_node, rotR_node]
          exact ⟨⟨oa, ob1, oab, xb1⟩, ⟨ob2, hor, kb2, hbr⟩,
            ⟨All_mp (fun x hx => lt_trans hx xzk) a oab, xzk, ob1z⟩,
            ⟨ob2z, kzk, All_mp (fun x hx => lt_trans kzk hx) r hbr⟩⟩
      · rw [if_neg c2, rotR_node]
        exact ⟨oa, ⟨ob, hor, kb, hbr⟩, oab,
          ⟨obb, kxk, All_mp (fun x hx => lt_trans kxk hx) r hbr⟩⟩
  · rw [if_neg c1]
    by_cases c3 : (height l : ℤ) - height r < -1
    · rw [if_pos c3]
      cases r with
      | nil => exfalso; rw [height_nil] at c3; omega
      | node b yk yv hy c =>
        obtain ⟨ob, oc, oby, ocy⟩ := hor
        obtain ⟨kb, kyk, kc⟩ := hbr
        by_cases c4 : bfac (node b yk yv hy c) > 0
        · rw [if_pos c4]
          rw [bfac_node] at c4
          cases b with
          | nil => exfalso; rw [height_nil] at c4; omega
          | node b1 zk zv hz b2 =>
            obtain ⟨ob1, ob2, ob1z, ob2z⟩ := ob
            obtain ⟨yb1, yzk, yb2⟩ := oby
            obtain ⟨kb1, kzk, kb2⟩ := kb
            rw [rotR_node, rotL_node]
            exact ⟨⟨hol, ob1, hbl, kb1⟩, ⟨ob2, oc, yb2, ocy⟩,
              ⟨All_mp (fun x hx => lt_trans hx kzk) l hbl, kzk, ob1z⟩,
              ⟨ob2z, yzk, All_mp (fun x hx => lt_trans yzk hx) c ocy⟩⟩
        · rw [if_neg c4, rotL_node]
          exact ⟨⟨hol, ob, hbl, kb⟩, oc,
            ⟨All_mp (fun x hx => lt_trans hx kyk) l hbl, kyk, oby⟩, ocy⟩
    · rw [if_neg c3]
      exact ⟨hol, hor, hbl, hbr⟩

/-- `insert_node` preserves the BST ordering, height correctness and
balance; the grown flag accounts exactly for the node count; the height
grows by at most one; and any per-key bound satisfied by the tree and the
new key still holds. -/
theorem insertNode_spec [LinearOrder K] :
    ∀ (t : AVL K V) (k : K) (v : V), Ord t → HOk t → Bal t →
      Ord (insertNode dlt dgt t k v).1 ∧ HOk (insertNode dlt dgt t k v).1 ∧
      Bal (insertNode dlt dgt t k v).1 ∧
      cnt (insertNode dlt dgt t k v).1
        = cnt t + (if (insertNode dlt dgt t k v).2 then 1 else 0) ∧
      height t ≤ height (insertNode dlt dgt t k v).1 ∧
      height (insertNode dlt dgt t k v).1 ≤ height t + 1 ∧
      (∀ p : K → Prop, All p t → p k → All p (insertNode dlt dgt t k v).1) := by
  intro t
  induction t with
  | nil =>
    intro k v _ _ _
    exact ⟨⟨trivial, trivial, trivial, trivial⟩, ⟨trivial, trivial, rfl⟩,
      ⟨trivial, trivial, Nat.le_succ _, Nat.le_succ _⟩, rfl,
      Nat.zero_le _, le_refl _, fun p _ hk => ⟨trivial, hk, trivial⟩⟩
  | node l k0 v0 h r ihl ihr =>
    intro k v ho hh hb
    obtain ⟨hol, hor, hbl, hbr⟩ := ho
    obtain ⟨hhl, hhr, hhh⟩ := hh
    obtain ⟨hbal_l, hbal_r, hb1, hb2⟩ := hb
    by_cases hk : k < k0
    · have hred : insertNode dlt dgt (node l k0 v0 h r) k v
          = (balance (node (insertNode dlt dgt l k v).1 k0 v0 h r),
             (insertNode dlt dgt l k v).2) := by
        simp only [insertNode]
        rw [if_pos (show dlt k k0 = true from decide_eq_true hk)]
      obtain ⟨ihOrd, ihH, ihB, ihC, ihLo, ihHi, ihAll⟩ := ihl k v hol hhl hbal_l
      obtain ⟨bsH, bsB, bsC, bsLo, bsHi, bsEq⟩ :=
        balance_spec (insertNode dlt dgt l k v).1 r k0 v0 h ihH hhr ihB hbal_r
          (by omega) (by omega)
      rw [hred]
      dsimp only
      refine ⟨?_, bsH, bsB, ?_, ?_, ?_, ?_⟩
      · exact balance_ord _ _ _ _ _ ihOrd hor (ihAll _ hbl hk) hbr
      · rw [bsC, cnt_node]
        omega
      · rw [height_node]
        by_cases hcase : height (insertNode dlt dgt l k v).1 ≤ height r + 1 ∧
            height r ≤ height (insertNode dlt dgt l k v).1 + 1
        · have := bsEq hcase.1 hcase.2
          omega
        · omega
      · rw [height_node]
        omega
      · intro p hp hk'
        exact balance_all p _ _ _ _ _ (ihAll p hp.1 hk') hp.2.1 hp.2.2
    · by_cases hk' : k0 < k
      · have hred : insertNode dlt dgt (node l k0 v0 h r) k v
            = (balance (node l k0 v0 h (insertNode dlt dgt r k v).1),
               (insertNode dlt dgt r k v).2) := by
          simp only [insertNode]
          rw [if_neg (by simp [dlt, hk]),
            if_pos (show dgt k k0 = true from decide_eq_true hk')]
        obtain ⟨ihOrd, ihH, ihB, ihC, ihLo, ihHi, ihAll⟩ := ihr k v hor hhr hbal_r
        obtain ⟨bsH, bsB, bsC, bsLo, bsHi, bsEq⟩ :=
          balance_spec l (insertNode dlt dgt r k v).1 k0 v0 h hhl ihH hbal_l ihB
            (by omega) (by omega)
        rw [hred]
        dsimp only
        refine ⟨?_, bsH, bsB, ?_, ?_, ?_, ?_⟩
        · exact balance_ord _ _ _ _ _ hol ihOrd hbl (ihAll _ hbr hk')
        · rw [bsC, cnt_node]
          omega
        · rw [height_node]
          by_cases hcase : height l ≤ height (insertNode dlt dgt r k v).1 + 1 ∧
              height (insertNode dlt dgt r k v).1 ≤ height l + 1
          · have := bsEq hcase.1 hcase.2
            omega
          · omega
        · rw [height_node]
          omega
        · intro p hp hk2
          exact balance_all p _ _ _ _ _ hp.1 hp.2.1 (ihAll p hp.2.2 hk2)
      · have hred : insertNode dlt dgt (node l k0 v0 h r) k v
            = (node l k0 v h r, false) := by
          simp only [insertNode]
          rw [if_neg (by simp [dlt, hk]), if_neg (by simp [dgt, hk'])]
        rw [hred]
        dsimp only
        refine ⟨⟨hol, hor, hbl, hbr⟩, ⟨hhl, hhr, hhh⟩,
          ⟨hbal_l, hbal_r, hb1, hb2⟩, ?_, ?_, ?_, ?_⟩
        · simp [cnt_node]
        · rw [height_node, height_node]
        · rw [height_node, height_node]
          omega
        · intro p hp _
          exact ⟨hp.1, hp.2.1, hp.2.2⟩

/-- `find_min` returns a key of the tree (or the default's key on the empty
tree): any per-key property of the tree extends to it. -/
theorem findMinP_key :
    ∀ (t : AVL K V) (d : K × V) (p : K → Prop),
      All p t → (t = nil → p d.1) → p (findMinP t d).1 := by
  intro t
  induction t with
  | nil => intro d p _ hd; exact hd rfl
  | node l k0 v0 h r ihl _ =>
    intro d p hall _
    show p (findMinP l (k0, v0)).1
    exact ihl (k0, v0) p hall.1 (fun _ => hall.2.1)

/-- On an ordered tree, `find_min` returns a lower bound for every key. -/
theorem findMinP_min [LinearOrder K] :
    ∀ (t : AVL K V) (d : K × V), Ord t →
      All (fun x => (findMinP t d).1 ≤ x) t := by
  intro t
  induction t with
  | nil => intro d _; trivial
  | node l k0 v0 h r ihl _ =>
    intro d ho
    obtain ⟨hol, hor, hbl, hbr⟩ := ho
    show All (fun x => (findMinP l (k0, v0)).1 ≤ x) (node l k0 v0 h r)
    have hk0 : (findMinP l (k0, v0)).1 ≤ k0 := by
      cases l with
      | nil => exact le_refl k0
      | node ll lk lv lh lr =>
        exact le_of_lt (findMinP_key (node ll lk lv lh lr) (k0, v0)
          (· < k0) hbl (fun hcon => AVL.noConfusion hcon))
    exact ⟨ihl (k0, v0) hol, hk0,
      All_mp (fun x hx => le_trans hk0 (le_of_lt hx)) r hbr⟩

/-- `remove_node` preserves the BST ordering, height correctness and
balance; the deleted flag accounts exactly for the node count; the height
shrinks by at most one; per-key bounds are preserved; and the removed key
is gone from the result. -/
theorem removeNode_spec [LinearOrder K] :
    ∀ (t : AVL K V) (k : K), Ord t → HOk t → Bal t →
      Ord (removeNode dlt dgt t k).1 ∧ HOk (removeNode dlt dgt t k).1 ∧
      Bal (removeNode dlt dgt t k).1 ∧
      cnt (removeNode dlt dgt t k).1
        + (if (removeNode dlt dgt t k).2 then 1 else 0) = cnt t ∧
      height (removeNode dlt dgt t k).1 ≤ height t ∧
      height t ≤ height (removeNode dlt dgt t k).1 + 1 ∧
      (∀ p : K → Prop, All p t → All p (removeNode dlt dgt t k).1) ∧
      All (fun x => x ≠ k) (removeNode dlt dgt t k).1 := by
  intro t
  induction t with
  | nil =>
    intro k _ _ _
    simp only [removeNode]
    exact ⟨trivial, trivial, trivial, by simp, le_refl _, Nat.le_succ _,
      fun p _ => trivial, trivial⟩
  | node l k0 v0 h r ihl ihr =>
    intro k ho hh hb
    obtain ⟨hol, hor, hbl, hbr⟩ := ho
    obtain ⟨hhl, hhr, hhh⟩ := hh
    obtain ⟨hbal_l, hbal_r, hb1, hb2⟩ := hb
    by_cases hk : k < k0
    · have hred : removeNode dlt dgt (node l k0 v0 h r) k
          = (balance (node (removeNode dlt dgt l k).1 k0 v0 h r),
             (removeNode dlt dgt l k).2) := by
        rw [removeNode.eq_def]
        dsimp only
        rw [if_pos (show dlt k k0 = true from decide_eq_true hk)]
      obtain ⟨ihOrd, ihH, ihB, ihC, ihHi, ihLo, ihAll, ihNe⟩ :=
        ihl k hol hhl hbal_l
      obtain ⟨bsH, bsB, bsC, bsLo, bsHi, bsEq⟩ :=
        balance_spec (removeNode dlt dgt l k).1 r k0 v0 h ihH hhr ihB hbal_r
          (by omega) (by omega)
      rw [hred]
      dsimp only
      refine ⟨?_, bsH, bsB, ?_, ?_, ?_, ?_, ?_⟩
      · exact balance_ord _ _ _ _ _ ihOrd hor (ihAll _ hbl) hbr
      · rw [bsC, cnt_node]
        omega
      · rw [height_node]
        omega
      · rw [height_node]
        by_cases hcase : height (removeNode dlt dgt l k).1 ≤ height r + 1 ∧
            height r ≤ height (removeNode dlt dgt l k).1 + 1
        · have := bsEq hcase.1 hcase.2
          omega
        · omega
      · intro p hp
        exact balance_all p _ _ _ _ _ (ihAll p hp.1) hp.2.1 hp.2.2
      · exact balance_all _ _ _ _ _ _ ihNe (ne_of_gt hk)
          (All_mp (fun x hx => ne_of_gt (lt_trans hk hx)) r hbr)
    · by_cases hk' : k0 < k
      · have hred : removeNode dlt dgt (node l k0 v0 h r) k
            = (balance (node l k0 v0 h (removeNode dlt dgt r k).1),
               (removeNode dlt dgt r k).2) := by
          rw [removeNode.eq_def]
          dsimp only
          rw [if_neg (by simp [dlt, hk]),
            if_pos (show dgt k k0 = true from decide_eq_true hk')]
        obtain ⟨ihOrd, ihH, ihB, ihC, ihHi, ihLo, ihAll, ihNe⟩ :=
          ihr k hor hhr hbal_r
        obtain ⟨bsH, bsB, bsC, bsLo, bsHi, bsEq⟩ :=
          balance_spec l (removeNode dlt dgt r k).1 k0 v0 h hhl ihH hbal_l ihB
            (by omega) (by omega)
        rw [hred]
        dsimp only
        refine ⟨?_, bsH, bsB, ?_, ?_, ?_, ?_, ?_⟩
        · exact balance_ord _ _ _ _ _ hol ihOrd hbl (ihAll _ hbr)
        · rw [bsC, cnt_node]
          omega
        · rw [height_node]
          omega
        · rw [height_node]
          by_cases hcase : height l ≤ height (removeNode dlt dgt r k).1 + 1 ∧
              height (removeNode dlt dgt r k).1 ≤ height l + 1
          · have := bsEq hcase.1 hcase.2
            omega
          · omega
        · intro p hp
          exact balance_all p _ _ _ _ _ hp.1 hp.2.1 (ihAll p hp.2.2)
        · exact balance_all _ _ _ _ _ _
            (All_mp (fun x hx => ne_of_lt (lt_trans hx hk')) l hbl)
            (ne_of_lt hk') ihNe
      · have hkeq : k = k0 := le_antisymm (not_lt.mp hk') (not_lt.mp hk)
        cases l with
        | nil =>
          have hred : removeNode dlt dgt (node nil k0 v0 h r) k = (r, true) := by
            rw [removeNode.eq_def]
            dsimp only
            rw [if_neg (by simp [dlt, hk]), if_neg (by simp [dgt, hk'])]
          rw [hred]
          dsimp only
          refine ⟨hor, hhr, hbal_r, ?_, ?_, ?_, ?_, ?_⟩
          · simp [cnt_node, cnt_nil]
          · rw [height_node]
            rw [height_nil] at hhh
            omega
          · rw [height_node]
            rw [height_nil] at hhh
            omega
          · intro p hp
            exact hp.2.2
          · refine All_mp (fun x hx => ?_) r hbr
            rw [hkeq]
            exact ne_of_gt hx
        | node ll lk lv lh lr =>
          cases r with
          | nil =>
            have hred : removeNode dlt dgt
                (node (node ll lk lv lh lr) k0 v0 h nil) k
                = (node ll lk lv lh lr, true) := by
              rw [removeNode.eq_def]
              dsimp only
              rw [if_neg (by simp [dlt, hk]), if_neg (by simp [dgt, hk'])]
            rw [hred]
            dsimp only
            refine ⟨hol, hhl, hbal_l, ?_, ?_, ?_, ?_, ?_⟩
            · simp [cnt_node, cnt_nil]
            · simp only [height_node, height_nil] at hhh ⊢
              omega
            · simp only [height_node, height_nil] at hhh ⊢
              omega
            · intro p hp
              exact hp.1
            · refine All_mp (fun x hx => ?_) _ hbl
              rw [hkeq]
              exact ne_of_lt hx
          | node rl rk rv rh rr =>
            have hred : removeNode dlt dgt
                (node (node ll lk lv lh lr) k0 v0 h (node rl rk rv rh rr)) k
                = (balance (node (node ll lk lv lh lr)
                    (findMinP (node rl rk rv rh rr) (k0, v0)).1
                    (findMinP (node rl rk rv rh rr) (k0, v0)).2 h
                    (removeNode dlt dgt (node rl rk rv rh rr)
                      (findMinP (node rl rk rv rh rr) (k0, v0)).1).1),
                   (removeNode dlt dgt (node rl rk rv rh rr)
                      (findMinP (node rl rk rv rh rr) (k0, v0)).1).2) := by
              rw [removeNode.eq_def]
              dsimp only
              rw [if_neg (by simp [dlt, hk]), if_neg (by simp [dgt, hk'])]
            have hsk_lb : All (fun x =>
                (findMinP (node rl rk rv rh rr) (k0, v0)).1 ≤ x)
                (node rl rk rv rh rr) :=
              findMinP_min (node rl rk rv rh rr) (k0, v0) hor
            have hsk_inr : ∀ q : K → Prop, All q (node rl rk rv rh rr) →
                q (findMinP (node rl rk rv rh rr) (k0, v0)).1 :=
              fun q hq => findMinP_key (node rl rk rv rh rr) (k0, v0) q hq
                (fun hcon => AVL.noConfusion hcon)
            have hk0sk : k0 < (findMinP (node rl rk rv rh rr) (k0, v0)).1 :=
              hsk_inr (fun x => k0 < x) hbr
            obtain ⟨rOrd, rH, rB, rC, rHi, rLo, rAll, rNe⟩ :=
              ihr (findMinP (node rl rk rv rh rr) (k0, v0)).1 hor hhr hbal_r
            have hgt : All (fun x =>
                (findMinP (node rl rk rv rh rr) (k0, v0)).1 < x)
                (removeNode dlt dgt (node rl rk rv rh rr)
                  (findMinP (node rl rk rv rh rr) (k0, v0)).1).1 :=
              All_mp₂ (fun x h1 h2 => lt_of_le_of_ne h1 (Ne.symm h2)) _
                (rAll _ hsk_lb) rNe
            obtain ⟨bsH, bsB, bsC, bsLo, bsHi, bsEq⟩ :=
              balance_spec (node ll lk lv lh lr)
                (removeNode dlt dgt (node rl rk rv rh rr)
                  (findMinP (node rl rk rv rh rr) (k0, v0)).1).1
                (findMinP (node rl rk rv rh rr) (k0, v0)).1
                (findMinP (node rl rk rv rh rr) (k0, v0)).2 h
                hhl rH hbal_l rB (by omega) (by omega)
            rw [hred]
            dsimp only
            refine ⟨?_, bsH, bsB, ?_, ?_, ?_, ?_, ?_⟩
            · exact balance_ord _ _ _ _ _ hol rOrd
                (All_mp (fun x hx => lt_trans hx hk0sk) _ hbl) hgt
            · rw [bsC]
              simp only [cnt_node] at rC ⊢
              omega
            · rw [height_node]
              omega
            · rw [height_node]
              by_cases hcase : height (node ll lk lv lh lr)
                  ≤ height (removeNode dlt dgt (node rl rk rv rh rr)
                    (findMinP (node rl rk rv rh rr) (k0, v0)).1).1 + 1 ∧
                  height (removeNode dlt dgt (node rl rk rv rh rr)
                    (findMinP (node rl rk rv rh rr) (k0, v0)).1).1
                  ≤ height (node ll lk lv lh lr) + 1
              · have := bsEq hcase.1 hcase.2
                omega
              · omega
            · intro p hp
              exact balance_all p _ _ _ _ _ hp.1 (hsk_inr p hp.2.2)
                (rAll p hp.2.2)
            · refine balance_all _ _ _ _ _ _
                (All_mp (fun x hx => ?_) _ hbl) ?_
                (All_mp (fun x hx => ?_) _ (rAll _ hbr))
              · rw [hkeq]; exact ne_of_lt hx
              · rw [hkeq]; exact ne_of_gt hk0sk
              · rw [hkeq]; exact ne_of_gt hx

end AVL

/-- The structural invariant of the whole `AVLTree` class: binary-search-tree
ordering, correct recorded heights, balance factor in `{-1, 0, 1}` at every
node, and `size_` equal to the number of nodes. -/
def AVLTree.Inv {K V : Type} [LinearOrder K] (t : AVLTree K V) : Prop :=
  AVL.Ord t.root ∧ AVL.HOk t.root ∧ AVL.BalF t.root ∧ t.size = AVL.cnt t.root

/-- One call through the public mutating interface of `AVLTree`. -/
inductive TOp (K V : Type) where
  | ins (k : K) (v : V) : TOp K V
  | del (k : K) : TOp K V

/-- Run one public operation on the tree (with the comparator given by the
key order, as the C++ template requires of `operator<` / `operator>`). -/
def applyOp {K V : Type} [LinearOrder K] (t : AVLTree K V) : TOp K V → AVLTree K V
  | TOp.ins k v => AVLTree.insert dlt dgt t k v
  | TOp.del k => (AVLTree.remove dlt dgt t k).1

theorem applyOp_inv {K V : Type} [LinearOrder K] (t : AVLTree K V)
    (op : TOp K V) (h : t.Inv) : (applyOp t op).Inv := by
  obtain ⟨ho, hh, hbf, hs⟩ := h
  have hbal := (AVL.bal_iff_balF t.root).mpr hbf
  cases op with
  | ins k v =>
    obtain ⟨iO, iH, iB, iC, -, -, -⟩ :=
      AVL.insertNode_spec t.root k v ho hh hbal
    refine ⟨iO, iH, (AVL.bal_iff_balF _).mp iB, ?_⟩
    show t.size + (if (AVL.insertNode dlt dgt t.root k v).2 then 1 else 0)
        = AVL.cnt (AVL.insertNode dlt dgt t.root k v).1
    omega
  | del k =>
    obtain ⟨rO, rH, rB, rC, -, -, -, -⟩ :=
      AVL.removeNode_spec t.root k ho hh hbal
    refine ⟨rO, rH, (AVL.bal_iff_balF _).mp rB, ?_⟩
    show t.size - (if (AVL.removeNode dlt dgt t.root k).2 then 1 else 0)
        = AVL.cnt (AVL.removeNode dlt dgt t.root k).1
    omega

end KVS

namespace KVS

/-! ## Claim theorems (concrete evaluations) -/

/-- C1 (code bug): after `add("a", 1)` and `add("b", 1)` on an empty sorted
set, invariant R1 fails for member `"a"`: the member map still holds
`"a" ↦ 1`, but the ordered index — which is keyed by the score alone — holds
a single node mapping score `1` to `"b"`; no entry for `"a"` remains in it.
The claim asserts both members still satisfy R1. -/
theorem C1_r1_fails_on_score_tie :
    (SortedSet.add (SortedSet.add SortedSet.empty "a" (Score.fin 1)).2
        "b" (Score.fin 1)).2.member_scores = [("a", Score.fin 1), ("b", Score.fin 1)] ∧
    AVL.find Score.ltb Score.gtb
      (SortedSet.add (SortedSet.add SortedSet.empty "a" (Score.fin 1)).2
        "b" (Score.fin 1)).2.score_tree.root (Score.fin 1) = some "b" ∧
    (SortedSet.add (SortedSet.add SortedSet.empty "a" (Score.fin 1)).2
        "b" (Score.fin 1)).2.get_all = [("b", Score.fin 1)] ∧
    (SortedSet.add (SortedSet.add SortedSet.empty "a" (Score.fin 1)).2
        "b" (Score.fin 1)).2.size = 2 := by
  decide

/-- C2 (code bug): after `set_ex("k", "v", 5)` at instant 0 the entry is
expired at instant 10 (`is_expired` is true), yet `get("k")` still returns
`"v"` — the built `HashTable::get` contains no expiry check and deletes
nothing — and `dbsize` still counts the entry.  The claim requires `get` to
return nothing and lazily delete the expired entry. -/
theorem C2_get_ignores_expiry :
    (StorageEngine.set_ex StorageEngine.empty "k" "v" 5 0).hash_table.find_entry "k"
        = some ⟨"k", Value.vstr "v", some 5⟩ ∧
    HTEntry.is_expired ⟨"k", Value.vstr "v", some 5⟩ 10 = true ∧
    (StorageEngine.set_ex StorageEngine.empty "k" "v" 5 0).get "k" = some "v" ∧
    (StorageEngine.set_ex StorageEngine.empty "k" "v" 5 0).dbsize = 1 := by
  decide

/-- C3 (code bug): `set_ex("k","v1",5)` at instant 0, then `set("k","v2")`.
The overwrite clears the entry's expiry but `StorageEngine::set` never
removes `"k"` from the TTL heap, so the scheduler still holds `("k", 5)`;
the next worker pass after instant 5 then deletes the freshly written key:
`get("k")` is empty and `dbsize` drops to 0.  The claim requires that after
`set` the key is never deleted by the expiry worker. -/
theorem C3_set_leaves_heap_entry :
    ((StorageEngine.set_ex StorageEngine.empty "k" "v1" 5 0).set "k" "v2").hash_table.find_entry "k"
        = some ⟨"k", Value.vstr "v2", none⟩ ∧
    ((StorageEngine.set_ex StorageEngine.empty "k" "v1" 5 0).set "k" "v2").ttl_heap.heap
        = [⟨"k", 5⟩] ∧
    (((StorageEngine.set_ex StorageEngine.empty "k" "v1" 5 0).set "k" "v2").process_expired_keys 6).get "k"
        = none ∧
    (((StorageEngine.set_ex StorageEngine.empty "k" "v1" 5 0).set "k" "v2").process_expired_keys 6).dbsize
        = 0 := by
  decide

/-- C4 (code bug): `TTL` on an absent key does answer `-2`, but
`StorageEngine::ttl` is a stub returning `seconds(0)` for every present key,
so `cmd_ttl` answers `0` both for a key without expiry (the claim requires
`-1`) and for a key set with a 10-second TTL at instant 0 queried at that
same instant (the claim requires the remaining whole seconds, 10 — the code
can never answer anything but 0). -/
theorem C4_ttl_stub_returns_zero :
    cmd_ttl StorageEngine.empty "k" = CommandResponse.int (-2) ∧
    cmd_ttl (StorageEngine.empty.set "k" "v") "k" = CommandResponse.int 0 ∧
    cmd_ttl (StorageEngine.set_ex StorageEngine.empty "k" "v" 10 0) "k"
        = CommandResponse.int 0 := by
  refine ⟨rfl, rfl, rfl⟩

/-- C5 counterexample: with `"k"` holding the string `"v"`, `ZADD k 1 m`
answers the integer 0 — not an error — and leaves the store unchanged; and
with `"s"` holding a sorted set, `GET s` answers nil — not an error.  The
claim asserts both commands surface a WrongType error. -/
theorem C5_counterexample_no_wrongtype_error :
    (cmd_zadd ⟨⟨[⟨"k", Value.vstr "v", none⟩]⟩, TTLHeap.empty⟩ "k"
        [(Score.fin 1, "m")]).1.isErr = false ∧
    (cmd_zadd ⟨⟨[⟨"k", Value.vstr "v", none⟩]⟩, TTLHeap.empty⟩ "k"
        [(Score.fin 1, "m")]).1 = CommandResponse.int 0 ∧
    (cmd_zadd ⟨⟨[⟨"k", Value.vstr "v", none⟩]⟩, TTLHeap.empty⟩ "k"
        [(Score.fin 1, "m")]).2
        = ⟨⟨[⟨"k", Value.vstr "v", none⟩]⟩, TTLHeap.empty⟩ ∧
    (cmd_get (cmd_zadd StorageEngine.empty "s" [(Score.fin 1, "m")]).2 "s").isErr
        = false ∧
    cmd_get (cmd_zadd StorageEngine.empty "s" [(Score.fin 1, "m")]).2 "s"
        = CommandResponse.nil := by
  refine ⟨rfl, rfl, by decide, rfl, rfl⟩

/-- C5 amended: a wrong-variant operation yields the empty answer for its
type and never converts or modifies the value: `ZADD` on a key holding a
string replies the integer 0 and leaves the engine unchanged, and `GET` on
a key holding a sorted set replies nil. -/
theorem C5_amended_wrongtype_empty_answers
    (e e' : StorageEngine) (k k' sv : String) (z : SortedSet)
    (pairs : List (Score × String))
    (hk : e.hash_table.get k = some (Value.vstr sv))
    (hk' : e'.hash_table.get k' = some (Value.vzset z)) :
    cmd_zadd e k pairs = (CommandResponse.int 0, e) ∧
    cmd_get e' k' = CommandResponse.nil := by
  constructor
  · have hz : ∀ m sc, e.zadd k m sc = (false, e) := by
      intro m sc
      simp [StorageEngine.zadd, hk]
    have hfold : ∀ (ps : List (Score × String)) (n : ℤ),
        ps.foldl
          (fun (acc : ℤ × StorageEngine) p =>
            let q := acc.2.zadd k p.2 p.1
            (acc.1 + (if q.1 then 1 else 0), q.2))
          (n, e) = (n, e) := by
      intro ps
      induction ps with
      | nil => intro n; rfl
      | cons p t ih =>
        intro n
        simp only [List.foldl_cons, hz p.2 p.1]
        simpa using ih n
    simp [cmd_zadd, hfold]
  · simp [cmd_get, StorageEngine.get, hk', Value.is_string]

/-- Witness for the C5 amended theorem at a concrete store. -/
theorem C5_amended_witness :
    cmd_zadd ⟨⟨[⟨"k", Value.vstr "v", none⟩]⟩, TTLHeap.empty⟩ "k"
        [(Score.fin 2, "m")]
      = (CommandResponse.int 0, ⟨⟨[⟨"k", Value.vstr "v", none⟩]⟩, TTLHeap.empty⟩) ∧
    cmd_get ⟨⟨[⟨"s", Value.vzset (SortedSet.add SortedSet.empty "m" (Score.fin 1)).2,
        none⟩]⟩, TTLHeap.empty⟩ "s" = CommandResponse.nil :=
  C5_amended_wrongtype_empty_answers _ _ "k" "s" "v"
    (SortedSet.add SortedSet.empty "m" (Score.fin 1)).2 [(Score.fin 2, "m")] rfl rfl

/-- C6 (code bug): build the heap `[0,10,1,11,12,2,3]` (expiries; keys `a`–`g`)
through `add`, which satisfies the heap order, then `remove("d")` (expiry 11,
an interior slot).  `TTLHeap::remove` swaps in the last entry `("g", 3)` and
only sifts down; the missing sift-up leaves `heap[1].expiry = 10 >
heap[3].expiry = 3`, violating the invariant the claim says every operation
preserves. -/
theorem C6_remove_breaks_heap_order :
    heapOrd ([("a", 0), ("b", 10), ("c", 1), ("d", 11), ("e", 12), ("f", 2),
      ("g", 3)].foldl (fun h p => TTLHeap.add h p.1 p.2) TTLHeap.empty).heap ∧
    (([("a", 0), ("b", 10), ("c", 1), ("d", 11), ("e", 12), ("f", 2),
      ("g", 3)].foldl (fun h p => TTLHeap.add h p.1 p.2) TTLHeap.empty).remove "d").heap
      = [⟨"a", 0⟩, ⟨"b", 10⟩, ⟨"c", 1⟩, ⟨"g", 3⟩, ⟨"e", 12⟩, ⟨"f", 2⟩] ∧
    ¬ heapOrd (([("a", 0), ("b", 10), ("c", 1), ("d", 11), ("e", 12), ("f", 2),
      ("g", 3)].foldl (fun h p => TTLHeap.add h p.1 p.2) TTLHeap.empty).remove "d").heap := by
  refine ⟨by decide, by decide, by decide⟩

/-- C7: for every heap state satisfying the heap-order invariant and every
instant `now`, `get_expired_keys` returns exactly the keys of the entries
with expiry `≤ now` (the returned key list is the key image of a
permutation `es` of those entries), in non-decreasing expiry order, and
every entry remaining in the heap afterwards has expiry strictly greater
than `now` (so in particular the smallest remaining expiry exceeds `now`). -/
theorem C7_drain_expired_correct (s : TTLHeap) (now : ℕ)
    (h : heapOrd s.heap) :
    ∃ es : List TTLEntry,
      (s.get_expired_keys now).1 = es.map TTLEntry.key ∧
      es.Perm (s.heap.filter (fun e => e.expiry ≤ now)) ∧
      List.Sorted (fun a b => a ≤ b) (es.map TTLEntry.expiry) ∧
      (s.get_expired_keys now).2.heap.Perm
        (s.heap.filter (fun e => now < e.expiry)) ∧
      ∀ e ∈ (s.get_expired_keys now).2.heap, now < e.expiry := by
  obtain ⟨es, h1, h2, h3, h4, _⟩ :=
    TTLHeap.drainGo_spec s.heap.length s now le_rfl h
  refine ⟨es, h1, h2, h3, h4, ?_⟩
  intro e he
  have hmem := h4.subset he
  have := (List.mem_filter.mp hmem).2
  simpa using this

/-- Witness for C7 on the concrete heap `[(a,1),(b,3),(c,2)]` at instant 2. -/
theorem C7_drain_expired_correct_witness :
    heapOrd (⟨[⟨"a", 1⟩, ⟨"b", 3⟩, ⟨"c", 2⟩],
      [("a", 0), ("b", 1), ("c", 2)]⟩ : TTLHeap).heap ∧
    ∃ es : List TTLEntry,
      ((⟨[⟨"a", 1⟩, ⟨"b", 3⟩, ⟨"c", 2⟩],
        [("a", 0), ("b", 1), ("c", 2)]⟩ : TTLHeap).get_expired_keys 2).1
          = es.map TTLEntry.key ∧
      es.Perm ((⟨[⟨"a", 1⟩, ⟨"b", 3⟩, ⟨"c", 2⟩],
        [("a", 0), ("b", 1), ("c", 2)]⟩ : TTLHeap).heap.filter
          (fun e => e.expiry ≤ 2)) ∧
      List.Sorted (fun a b => a ≤ b) (es.map TTLEntry.expiry) ∧
      ((⟨[⟨"a", 1⟩, ⟨"b", 3⟩, ⟨"c", 2⟩],
        [("a", 0), ("b", 1), ("c", 2)]⟩ : TTLHeap).get_expired_keys 2).2.heap.Perm
        ((⟨[⟨"a", 1⟩, ⟨"b", 3⟩, ⟨"c", 2⟩],
          [("a", 0), ("b", 1), ("c", 2)]⟩ : TTLHeap).heap.filter
            (fun e => 2 < e.expiry)) ∧
      ∀ e ∈ ((⟨[⟨"a", 1⟩, ⟨"b", 3⟩, ⟨"c", 2⟩],
        [("a", 0), ("b", 1), ("c", 2)]⟩ : TTLHeap).get_expired_keys 2).2.heap,
          2 < e.expiry :=
  ⟨by decide, C7_drain_expired_correct _ 2 (by decide)⟩

/-- C8 (code bug): `std::stod("nan")` succeeds, so `ZADD s nan x` reaches the
engine with a NaN score; the sorted set accepts it (the reply is the integer
1, not an error), the member is added and the set's size grows from 0 to 1.
The claim requires an error and an unchanged set. -/
theorem C8_nan_score_accepted :
    (cmd_zadd StorageEngine.empty "s" [(Score.nan, "x")]).1
        = CommandResponse.int 1 ∧
    (cmd_zadd StorageEngine.empty "s" [(Score.nan, "x")]).1.isErr = false ∧
    (cmd_zadd StorageEngine.empty "s" [(Score.nan, "x")]).2.zcard "s" = 1 ∧
    (cmd_zadd StorageEngine.empty "s" [(Score.nan, "x")]).2.zscore "s" "x"
        = some Score.nan := by
  refine ⟨rfl, rfl, by decide, by decide⟩

/-- C9 (code bug): `ZADD s 1 a` then `ZADD s 5 a`.  The second command is an
update — the old entry leaves the ordered index, `(5, "a")` is inserted, the
member count stays 1 — but `SortedSet::add` returns true for updates too, so
`cmd_zadd` counts it and replies the integer 1 where the claim (and scenario
4 of the spec) requires 0. -/
theorem C9_update_counted_as_add :
    (cmd_zadd StorageEngine.empty "s" [(Score.fin 1, "a")]).1
        = CommandResponse.int 1 ∧
    (cmd_zadd (cmd_zadd StorageEngine.empty "s" [(Score.fin 1, "a")]).2 "s"
        [(Score.fin 5, "a")]).1 = CommandResponse.int 1 ∧
    (cmd_zadd (cmd_zadd StorageEngine.empty "s" [(Score.fin 1, "a")]).2 "s"
        [(Score.fin 5, "a")]).2.zscore "s" "a" = some (Score.fin 5) ∧
    (cmd_zadd (cmd_zadd StorageEngine.empty "s" [(Score.fin 1, "a")]).2 "s"
        [(Score.fin 5, "a")]).2.zcard "s" = 1 := by
  refine ⟨rfl, rfl, by decide, by decide⟩

/-- C10 (confirmed): after any sequence of `insert` and `remove` operations
on an initially empty `AVLTree` over a linearly ordered key type, the tree
satisfies the binary-search-tree ordering, every node's recorded height
equals one plus the maximum of its children's heights, every node's balance
factor lies in `Set.Icc (-1) 1`, and the `size_` counter equals the number of
nodes in the tree. -/
theorem C10_avl_invariants (K V : Type) [LinearOrder K]
    (ops : List (TOp K V)) : (ops.foldl applyOp AVLTree.empty).Inv := by
  suffices hgen : ∀ (l : List (TOp K V)) (t : AVLTree K V), t.Inv →
      (l.foldl applyOp t).Inv from
    hgen ops AVLTree.empty ⟨trivial, trivial, trivial, rfl⟩
  intro l
  induction l with
  | nil => exact fun t ht => ht
  | cons op l ih => exact fun t ht => ih (applyOp t op) (applyOp_inv t op ht)

end KVS
